import Mathlib

/-!
Verification of the SARAL TTS core (src/backend/app/services/tts_service.py and
src/backend/app/services/language_service.py).

Texts are shallowly embedded as lists of tokens.  For simple-script languages a
token is one code unit (`Char`), exactly as the Python code measures length with
`len`.  For complex-script languages the Python code measures length with
`grapheme.length` and never cuts anywhere except at whitespace, so a text is
embedded as its list of grapheme clusters (`Cluster`); `grapheme.length` is then
`List.length`, and a cluster can never be split by construction.

The chunking algorithm itself (`chunk_text_by_language`, `chunk_hindi_text`) is
the same greedy loop in both branches of the source, so it is defined once
(`chunkCore`) over an arbitrary token type with a whitespace test `isSp`, a
sentence-terminator test `isTerm` and a distinguished space token `sp`, and then
instantiated for each branch.
-/

namespace Saral

/-- Python's whitespace test for the characters the code actually handles
(the `\s` class on the ASCII range): space, tab, newline, carriage return,
vertical tab, form feed. -/
def pySpaceChar (c : Char) : Bool :=
  c = ' ' || c = '\t' || c = '\n' || c = '\r' || c = '\x0b' || c = '\x0c'

/-- Sentence-final punctuation of the simple-script branch of
`chunk_text_by_language` (regex class `[.!?]`). -/
def simpleTermChar (c : Char) : Bool :=
  c = '.' || c = '!' || c = '?'

/-- One grapheme cluster of a complex-script text.  `space c` is a whitespace
cluster (one whitespace code point `c`), `stop c` is a sentence-final mark
(one of `। ॥ . ! ?`, the regex class `[।॥.!?]` of `chunk_hindi_text` and of the
complex branch of `chunk_text_by_language`), and `txt s` is any other
user-perceived character, carrying its underlying code units. -/
inductive Cluster where
  | space (c : Char) : Cluster
  | stop (c : Char) : Cluster
  | txt (s : String) : Cluster
deriving DecidableEq, Repr

/-- Whitespace test on grapheme clusters. -/
def Cluster.isSpace : Cluster → Bool
  | .space _ => true
  | _ => false

/-- Sentence-terminator test on grapheme clusters. -/
def Cluster.isStop : Cluster → Bool
  | .stop _ => true
  | _ => false

/-- Python `str.strip()` over a token list: drop leading and trailing
whitespace tokens. -/
def pyStrip {τ : Type} (isSp : τ → Bool) (s : List τ) : List τ :=
  ((s.dropWhile isSp).reverse.dropWhile isSp).reverse

/-- Worker for `pyWords`; `acc` holds the (reversed) word being read. -/
def pyWordsAux {τ : Type} (isSp : τ → Bool) : List τ → List τ → List (List τ)
  | [], acc => if acc.isEmpty then [] else [acc.reverse]
  | c :: rest, acc =>
    if isSp c then
      if acc.isEmpty then pyWordsAux isSp rest []
      else acc.reverse :: pyWordsAux isSp rest []
    else pyWordsAux isSp rest (c :: acc)

/-- Python `str.split()` with no argument: the maximal whitespace-free runs of
the text, in order, with empty strings discarded. -/
def pyWords {τ : Type} (isSp : τ → Bool) (s : List τ) : List (List τ) :=
  pyWordsAux isSp s []

/-- State of the sentence-splitting scan: pieces already emitted, the current
piece (reversed), and whether the scan is inside the whitespace run of a match
being consumed. -/
structure SState (τ : Type) where
  done : List (List τ)
  cur : List τ
  skipping : Bool
deriving Repr

/-- One character step of `re.split(r'(?<=[term])\s+', text)`: a match begins
at a whitespace token whose predecessor (head of the reversed current piece) is
a sentence terminator; the whole whitespace run is consumed. -/
def splitStep {τ : Type} (isTerm isSp : τ → Bool) (st : SState τ) (c : τ) : SState τ :=
  if st.skipping then
    if isSp c then st else ⟨st.done, [c], false⟩
  else if (match st.cur with | t :: _ => isTerm t | [] => false) && isSp c then
    ⟨st.done ++ [st.cur.reverse], [], true⟩
  else
    ⟨st.done, c :: st.cur, false⟩

/-- The final scan state of the sentence-splitting pass over a text. -/
def splitRun {τ : Type} (isTerm isSp : τ → Bool) (text : List τ) : SState τ :=
  text.foldl (splitStep isTerm isSp) ⟨[], [], false⟩

/-- Python `re.split(r'(?<=[term])\s+', text)`: split at every whitespace run
that directly follows a sentence terminator, consuming the run.  A trailing
match leaves a final empty piece, exactly as `re.split` does. -/
def sentSplit {τ : Type} (isTerm isSp : τ → Bool) (text : List τ) : List (List τ) :=
  (splitRun isTerm isSp text).done ++
    [if (splitRun isTerm isSp text).skipping then []
     else (splitRun isTerm isSp text).cur.reverse]

/-- Inner word loop of the chunkers: state is `(chunks, temp_chunk)`; a word
that would overflow flushes `temp_chunk.strip()` (even when empty, as in the
source) and restarts `temp_chunk` as `word + " "`. -/
def wordStep {τ : Type} (isSp : τ → Bool) (sp : τ) (maxLen : Nat)
    (st : List (List τ) × List τ) (w : List τ) : List (List τ) × List τ :=
  if maxLen < st.2.length + w.length + 1 then
    (st.1 ++ [pyStrip isSp st.2], w ++ [sp])
  else
    (st.1, st.2 ++ w ++ [sp])

/-- Result of the word loop over the words of one over-long sentence, started
from the already-flushed chunk list `chunks1` and an empty `temp_chunk`. -/
def wordSplitRes {τ : Type} (isSp : τ → Bool) (sp : τ) (maxLen : Nat)
    (chunks1 : List (List τ)) (s : List τ) : List (List τ) × List τ :=
  (pyWords isSp s).foldl (wordStep isSp sp maxLen) (chunks1, [])

/-- The chunk list after flushing a non-empty `current_chunk`. -/
def flushCur {τ : Type} (isSp : τ → Bool) (st : List (List τ) × List τ) :
    List (List τ) :=
  if st.2.isEmpty then st.1 else st.1 ++ [pyStrip isSp st.2]

/-- Outer sentence loop of the chunkers: state is `(chunks, current_chunk)`.
If adding the sentence would overflow, flush `current_chunk.strip()` (when
non-empty); an over-long sentence is re-split on words, and `current_chunk` is
replaced by the word loop's leftover only when that leftover is non-empty,
exactly as `if temp_chunk: current_chunk = temp_chunk` in the source. -/
def sentenceStep {τ : Type} (isSp : τ → Bool) (sp : τ) (maxLen : Nat)
    (st : List (List τ) × List τ) (s : List τ) : List (List τ) × List τ :=
  if maxLen < st.2.length + s.length + 1 then
    if maxLen < s.length then
      ((wordSplitRes isSp sp maxLen (flushCur isSp st) s).1,
       if (wordSplitRes isSp sp maxLen (flushCur isSp st) s).2.isEmpty then st.2
       else (wordSplitRes isSp sp maxLen (flushCur isSp st) s).2)
    else
      (flushCur isSp st, s ++ [sp])
  else
    (st.1, st.2 ++ s ++ [sp])

/-- Final state of the sentence loop of the chunkers. -/
def chunkRun {τ : Type} (isTerm isSp : τ → Bool) (sp : τ) (maxLen : Nat)
    (text : List τ) : List (List τ) × List τ :=
  (sentSplit isTerm isSp text).foldl (sentenceStep isSp sp maxLen) ([], [])

/-- The chunking algorithm shared by `chunk_hindi_text` and both branches of
`chunk_text_by_language`: a text within the bound is returned whole as one
chunk (untrimmed); otherwise the text is split into sentences and the greedy
sentence/word loops run, with a final flush of the leftover chunk. -/
def chunkCore {τ : Type} (isTerm isSp : τ → Bool) (sp : τ) (maxLen : Nat)
    (text : List τ) : List (List τ) :=
  if text.length ≤ maxLen then [text]
  else flushCur isSp (chunkRun isTerm isSp sp maxLen text)

/-- `chunk_hindi_text` (tts_service.py lines 228-281): complex-script chunking
of a cluster text; the source's `max_chunk_length` defaults to 450. -/
def chunk_hindi_text (maxLen : Nat) (text : List Cluster) : List (List Cluster) :=
  chunkCore Cluster.isStop Cluster.isSpace (Cluster.space ' ') maxLen text

/-- Complex-script branch of `chunk_text_by_language` (tts_service.py lines
449-473): identical loop to `chunk_hindi_text`, grapheme-cluster lengths. -/
def chunk_text_by_language_complex (maxLen : Nat) (text : List Cluster) :
    List (List Cluster) :=
  chunkCore Cluster.isStop Cluster.isSpace (Cluster.space ' ') maxLen text

/-- Simple-script branch of `chunk_text_by_language` (tts_service.py lines
474-494): code-unit lengths, Latin sentence punctuation only. -/
def chunk_text_by_language_simple (maxLen : Nat) (text : List Char) :
    List (List Char) :=
  chunkCore simpleTermChar pySpaceChar ' ' maxLen text

/-- A chunk accumulator as the loops keep it: empty, or ending in a space
token (every assignment in the loops appends `+ " "`). -/
def endsWithSpace {τ : Type} (isSp : τ → Bool) (t : List τ) : Prop :=
  t = [] ∨ ∃ t' u, t = t' ++ [u] ∧ isSp u = true

/-- A chunk the specification allows: within the bound, or a single
whitespace-free word of the original text that itself exceeds the bound. -/
def chunkOkay {τ : Type} (maxLen : Nat) (W : List (List τ)) (c : List τ) : Prop :=
  c.length ≤ maxLen ∨ (maxLen < c.length ∧ c ∈ W)

/-- The word sequence of a chunk list: whitespace-normalized content of the
concatenation of the chunks in order. -/
def chunksWords {τ : Type} (isSp : τ → Bool) (cs : List (List τ)) : List (List τ) :=
  (cs.map (pyWords isSp)).flatten

/-! ### Language service (src/backend/app/services/language_service.py) -/

/-- `SUPPORTED_LANGUAGES` (language_service.py lines 6-17), a mapping from
language name to language code, embedded as an association list in the
source's insertion order. -/
def SUPPORTED_LANGUAGES : List (String × String) :=
  [("Hindi", "hi"), ("Bengali", "bn"), ("Gujarati", "gu"), ("Kannada", "kn"),
   ("Malayalam", "ml"), ("Marathi", "mr"), ("Odia", "or"), ("Punjabi", "pa"),
   ("Tamil", "ta"), ("Telugu", "te")]

/-- `is_language_supported` (language_service.py lines 28-39): the argument is
a key of `SUPPORTED_LANGUAGES` or one of its values. -/
def is_language_supported (language : String) : Bool :=
  SUPPORTED_LANGUAGES.any (fun p => p.1 == language) ||
  SUPPORTED_LANGUAGES.any (fun p => p.2 == language)

/-- `get_language_code` (language_service.py lines 41-55): dictionary lookup by
key, else the argument itself when it is already a code, else `None`. -/
def get_language_code (language : String) : Option String :=
  match SUPPORTED_LANGUAGES.find? (fun p => p.1 == language) with
  | some p => some p.2
  | none =>
    if SUPPORTED_LANGUAGES.any (fun p => p.2 == language) then some language
    else none

/-- Python `str.lower()` on the ASCII names the code compares. -/
def lowerStr (s : String) : String := ⟨s.data.map Char.toLower⟩

/-- `complex_script_languages` (tts_service.py lines 442 and 447). -/
def complex_script_languages : List String :=
  ["hindi", "bengali", "marathi", "nepali", "gujarati"]

/-- `get_chunk_size_for_language` (tts_service.py lines 441-443). -/
def get_chunk_size_for_language (lang : String) : Nat :=
  if complex_script_languages.contains (lowerStr lang) then 450 else 500

/-! ### Orchestrators (tts_service.py)

The external effects of a run (cloud client construction, the connectivity
probe, local synthesis, per-chunk cloud synthesis, the ffmpeg concatenation
subprocess) are modelled as an oracle environment `TtsEnv` recording each
call's outcome; the control flow around them is translated from the source. -/

/-- Outcome of `tts_client.test_connection()` inside the `try` block: returned
`True`, returned a falsy value, or raised. -/
inductive ProbeOutcome where
  | ok : ProbeOutcome
  | notOk : ProbeOutcome
  | raised : ProbeOutcome
deriving DecidableEq, Repr

/-- Outcome of one `tts_client.synthesize_text` call: returned audio bytes of
the given length, or raised an exception. -/
inductive SynthOutcome where
  | bytes (n : Nat) : SynthOutcome
  | raised : SynthOutcome
deriving DecidableEq, Repr

/-- Per-chunk success test of the source's loop: a segment file is written iff
the call returned and the byte string is non-empty
(`if audio_bytes and len(audio_bytes) > 0`). -/
def synthWrote (o : SynthOutcome) : Bool :=
  match o with
  | .bytes n => decide (0 < n)
  | .raised => false

/-- Oracle outcomes of the external calls of one run, indexed by the unit's
base file name (and chunk index for per-chunk synthesis). -/
structure TtsEnv where
  clientInit : Bool
  probe : ProbeOutcome
  localOk : String → Bool
  synth : String → Nat → SynthOutcome
  longSynthOk : String → Bool
  ffmpegOk : String → Bool

/-- Python truthiness-and-blank test `not key or key.strip() == ""`. -/
def pyBlank (key : String) : Bool :=
  key = "" || (pyStrip pySpaceChar key.data).isEmpty

/-- Backend selection (tts_service.py lines 86-109, 204-224, 420-436): local
mode when the key is blank; otherwise construct the client and probe once,
falling back to local on construction failure, a falsy probe, or a raised
probe. -/
def use_local_tts (key : String) (env : TtsEnv) : Bool :=
  if pyBlank key then true
  else if env.clientInit = false then true
  else
    match env.probe with
    | .ok => false
    | .notOk => true
    | .raised => true

/-- A path `os.path.join(dir, base)`; `name` is Python's `Path(p).name`. -/
structure APath where
  dir : String
  base : String
deriving DecidableEq, Repr

/-- Python `Path(p).name`: the base file name without its directory. -/
def APath.name (p : APath) : String := p.base

/-- `output_dir = f"temp/audio/{paper_id}"`. -/
def output_dir (paper_id : String) : String := "temp/audio/" ++ paper_id

/-- The fixed `section_order` list of all three orchestrators. -/
def sectionOrder : List String :=
  ["Introduction", "Methodology", "Results", "Discussion", "Conclusion"]

/-- Python `f"{i:02d}"` for the section indexes in use. -/
def twoDigit (i : Nat) : String :=
  if i < 10 then "0" ++ toString i else toString i

/-- Base file name `f"{i:02d}_{section_name.lower()}"` of a section unit. -/
def unitBaseName (i : Nat) (name : String) : String :=
  twoDigit i ++ "_" ++ lowerStr name

/-- `enumerate(section_order, start=1)`. -/
def enumSections : List (Nat × String) :=
  sectionOrder.enum.map (fun p => (p.1 + 1, p.2))

/-- The per-chunk loop of `generate_audio_from_chunks` (tts_service.py lines
499-508) and of the inlined Hindi chunk loops (lines 303-312, 354-363): for
each chunk index in order, a segment file is persisted exactly when that
chunk's synthesis call returns non-empty bytes; a raised call is caught and
only that chunk is skipped.  Returns the indexes of the persisted segment
files, in order. -/
def chunkFiles (env : TtsEnv) (base : String) (nChunks : Nat) : List Nat :=
  (List.range nChunks).filter (fun j => synthWrote (env.synth base j))

/-- The file finally placed at a unit's `output_path`, by provenance:
a direct copy of one segment, an ffmpeg concatenation of the listed segments,
or a fallback copy of the first segment after the tool failed. -/
inductive UnitAudio where
  | copied (j : Nat) : UnitAudio
  | concatenated (js : List Nat) : UnitAudio
  | fallbackCopy (j : Nat) : UnitAudio
deriving DecidableEq, Repr

/-- Assembly step of `generate_audio_from_chunks` (tts_service.py lines
510-524): no segments means failure (`return False`); one segment is copied
directly; several segments are concatenated with ffmpeg, falling back to a
copy of the first segment when the subprocess fails. -/
def assembleFiles (ffOk : Bool) (fs : List Nat) : Option UnitAudio :=
  match fs with
  | [] => none
  | [j] => some (.copied j)
  | j :: _ :: _ => if ffOk then some (.concatenated fs) else some (.fallbackCopy j)

/-- Assembly step of the inlined Hindi loops (tts_service.py lines 314-328 and
365-379): any non-empty segment list goes through the ffmpeg concatenation
(there is no single-segment special case), falling back to a copy of the first
segment when the subprocess fails. -/
def hindiAssembleFiles (ffOk : Bool) (fs : List Nat) : Option UnitAudio :=
  match fs with
  | [] => none
  | j :: _ => if ffOk then some (.concatenated fs) else some (.fallbackCopy j)

/-- `generate_audio_from_chunks` (tts_service.py lines 496-526) for a unit
with the given chunk list: per-chunk synthesis followed by assembly; `none`
models `return False`.  The chunk texts only determine how many synthesis
calls are made; each call's outcome is the oracle's. -/
def generate_audio_from_chunks {γ : Type} (env : TtsEnv) (base : String)
    (chunks : List γ) : Option UnitAudio :=
  assembleFiles (env.ffmpegOk base) (chunkFiles env base chunks.length)

/-- Accumulator of one run: `audio_files` and `successful_generations`. -/
structure RunAcc where
  files : List APath
  succ : Nat
deriving DecidableEq, Repr

/-- Unit-skip test `if not script_text or not script_text.strip(): continue`
(equally the title test `if title_intro_script and title_intro_script.strip()`
negated). -/
def pyTextBlank {γ : Type} (isSpg : γ → Bool) (t : List γ) : Bool :=
  t.isEmpty || (pyStrip isSpg t).isEmpty

/-- Success of one unit of `ensure_language_audio_is_generated`: local engine
in local mode, otherwise chunk the text and run
`generate_audio_from_chunks`.  `chunkFn` is `chunk_text_by_language` at the
run's language (its cluster or code-unit branch). -/
def langUnitOk {γ : Type} (env : TtsEnv) (useLocal : Bool)
    (chunkFn : List γ → List (List γ)) (base : String) (t : List γ) : Bool :=
  if useLocal then env.localOk base
  else (generate_audio_from_chunks env base (chunkFn t)).isSome

/-- One section iteration of `ensure_language_audio_is_generated` (lines
547-563): missing or blank sections are skipped; a successful unit appends its
output file and bumps the success counter. -/
def langStep {γ : Type} (env : TtsEnv) (useLocal : Bool)
    (chunkFn : List γ → List (List γ)) (isSpg : γ → Bool) (pid : String)
    (sections : String → Option (List γ)) (acc : RunAcc) (p : Nat × String) :
    RunAcc :=
  match sections p.2 with
  | none => acc
  | some t =>
    if pyTextBlank isSpg t then acc
    else if langUnitOk env useLocal chunkFn (unitBaseName p.1 p.2) t then
      ⟨acc.files ++ [⟨output_dir pid, unitBaseName p.1 p.2 ++ ".wav"⟩], acc.succ + 1⟩
    else acc

/-- The title attempt of `ensure_language_audio_is_generated` (lines
528-542). -/
def langTitleAcc {γ : Type} (env : TtsEnv) (useLocal : Bool)
    (chunkFn : List γ → List (List γ)) (isSpg : γ → Bool) (pid : String)
    (title : List γ) : RunAcc :=
  if pyTextBlank isSpg title then ⟨[], 0⟩
  else if langUnitOk env useLocal chunkFn "00_title_introduction" title then
    ⟨[⟨output_dir pid, "00_title_introduction.wav"⟩], 1⟩
  else ⟨[], 0⟩

/-- The title attempt plus the section loop of
`ensure_language_audio_is_generated` (lines 528-563). -/
def langRunAcc {γ : Type} (env : TtsEnv) (useLocal : Bool)
    (chunkFn : List γ → List (List γ)) (isSpg : γ → Bool) (pid : String)
    (title : List γ) (sections : String → Option (List γ)) : RunAcc :=
  enumSections.foldl (langStep env useLocal chunkFn isSpg pid sections)
    (langTitleAcc env useLocal chunkFn isSpg pid title)

/-- `ensure_language_audio_is_generated` (tts_service.py lines 394-577):
reject unsupported languages, resolve the backend once, run title and
sections, raise when nothing was generated, otherwise return the produced
base file names. -/
def ensure_language_audio_is_generated {γ : Type} (key : String)
    (env : TtsEnv) (language : String) (chunkFn : List γ → List (List γ))
    (isSpg : γ → Bool) (pid : String) (title : List γ)
    (sections : String → Option (List γ)) : Except String (List String) :=
  if is_language_supported language = false then
    .error ("Unsupported language: " ++ language)
  else if (langRunAcc env (use_local_tts key env) chunkFn isSpg pid title sections).succ = 0 then
    .error ("No " ++ language ++ " audio files were generated successfully")
  else
    .ok ((langRunAcc env (use_local_tts key env) chunkFn isSpg pid title
      sections).files.map APath.name)

/-- The files actually produced by a run of
`ensure_language_audio_is_generated` (none when the language is rejected
before any unit is attempted). -/
def langRunProduced {γ : Type} (key : String) (env : TtsEnv) (language : String)
    (chunkFn : List γ → List (List γ)) (isSpg : γ → Bool) (pid : String)
    (title : List γ) (sections : String → Option (List γ)) : List APath :=
  if is_language_supported language = false then []
  else (langRunAcc env (use_local_tts key env) chunkFn isSpg pid title sections).files

/-- Success of one unit of `ensure_audio_is_generated` (English path): local
engine, or the SDK's `synthesize_long_text`, both oracles. -/
def engUnitOk (env : TtsEnv) (useLocal : Bool) (base : String) : Bool :=
  if useLocal then env.localOk base else env.longSynthOk base

/-- One section iteration of `ensure_audio_is_generated` (lines 141-168):
the script is cleaned by `clean_script_for_tts_and_video` (abstracted as
`clean`, whose content no claim depends on) and the unit is attempted only
when the cleaned text is non-empty. -/
def engStep (env : TtsEnv) (useLocal : Bool) (clean : List Char → List Char)
    (pid : String) (sections : String → Option (List Char)) (acc : RunAcc)
    (p : Nat × String) : RunAcc :=
  match sections p.2 with
  | none => acc
  | some t =>
    if pyTextBlank pySpaceChar t then acc
    else if (clean t).isEmpty then acc
    else if engUnitOk env useLocal (unitBaseName p.1 p.2) then
      ⟨acc.files ++ [⟨output_dir pid, unitBaseName p.1 p.2 ++ ".wav"⟩], acc.succ + 1⟩
    else acc

/-- Title attempt plus section loop of `ensure_audio_is_generated`
(tts_service.py lines 113-168). -/
def engTitleAcc (env : TtsEnv) (useLocal : Bool) (clean : List Char → List Char)
    (pid : String) (title : List Char) : RunAcc :=
  if pyTextBlank pySpaceChar title then ⟨[], 0⟩
  else if (clean title).isEmpty then ⟨[], 0⟩
  else if engUnitOk env useLocal "00_title_introduction" then
    ⟨[⟨output_dir pid, "00_title_introduction.wav"⟩], 1⟩
  else ⟨[], 0⟩

/-- Title attempt plus section loop of `ensure_audio_is_generated`. -/
def engRunAcc (env : TtsEnv) (useLocal : Bool) (clean : List Char → List Char)
    (pid : String) (title : List Char) (sections : String → Option (List Char)) :
    RunAcc :=
  enumSections.foldl (engStep env useLocal clean pid sections)
    (engTitleAcc env useLocal clean pid title)

/-- `ensure_audio_is_generated` (tts_service.py lines 66-180). -/
def ensure_audio_is_generated (key : String) (env : TtsEnv)
    (clean : List Char → List Char) (pid : String) (title : List Char)
    (sections : String → Option (List Char)) : Except String (List String) :=
  if (engRunAcc env (use_local_tts key env) clean pid title sections).succ = 0 then
    .error "No audio files were generated successfully"
  else
    .ok ((engRunAcc env (use_local_tts key env) clean pid title
      sections).files.map APath.name)

/-- Success of one unit of `ensure_hindi_audio_is_generated`: local engine, or
the inlined chunk loop (`chunk_hindi_text` with the default bound 450) and
Hindi assembly. -/
def hindiUnitOk (env : TtsEnv) (useLocal : Bool) (base : String)
    (t : List Cluster) : Bool :=
  if useLocal then env.localOk base
  else
    (hindiAssembleFiles (env.ffmpegOk base)
      (chunkFiles env base (chunk_hindi_text 450 t).length)).isSome

/-- One section iteration of `ensure_hindi_audio_is_generated` (lines
333-379). -/
def hindiStep (env : TtsEnv) (useLocal : Bool) (pid : String)
    (sections : String → Option (List Cluster)) (acc : RunAcc)
    (p : Nat × String) : RunAcc :=
  match sections p.2 with
  | none => acc
  | some t =>
    if pyTextBlank Cluster.isSpace t then acc
    else if hindiUnitOk env useLocal (unitBaseName p.1 p.2) t then
      ⟨acc.files ++ [⟨output_dir pid, unitBaseName p.1 p.2 ++ ".wav"⟩], acc.succ + 1⟩
    else acc

/-- Title attempt plus section loop of `ensure_hindi_audio_is_generated`
(tts_service.py lines 283-379). -/
def hindiTitleAcc (env : TtsEnv) (useLocal : Bool) (pid : String)
    (title : List Cluster) : RunAcc :=
  if pyTextBlank Cluster.isSpace title then ⟨[], 0⟩
  else if hindiUnitOk env useLocal "00_title_introduction" title then
    ⟨[⟨output_dir pid, "00_title_introduction.wav"⟩], 1⟩
  else ⟨[], 0⟩

/-- Title attempt plus section loop of `ensure_hindi_audio_is_generated`. -/
def hindiRunAcc (env : TtsEnv) (useLocal : Bool) (pid : String)
    (title : List Cluster) (sections : String → Option (List Cluster)) : RunAcc :=
  enumSections.foldl (hindiStep env useLocal pid sections)
    (hindiTitleAcc env useLocal pid title)

/-- `ensure_hindi_audio_is_generated` (tts_service.py lines 184-391). -/
def ensure_hindi_audio_is_generated (key : String) (env : TtsEnv) (pid : String)
    (title : List Cluster) (sections : String → Option (List Cluster)) :
    Except String (List String) :=
  if (hindiRunAcc env (use_local_tts key env) pid title sections).succ = 0 then
    .error "No Hindi audio files were generated successfully"
  else
    .ok ((hindiRunAcc env (use_local_tts key env) pid title
      sections).files.map APath.name)

/-! ### Lemma layer: words and stripping -/

variable {τ : Type} {isSp : τ → Bool}

theorem pyWordsAux_append_space {c : τ} (hc : isSp c = true) :
    ∀ (a acc b : List τ),
      pyWordsAux isSp (a ++ c :: b) acc = pyWordsAux isSp a acc ++ pyWords isSp b := by
  intro a
  induction a with
  | nil =>
    intro acc b
    simp only [List.nil_append, pyWordsAux, hc, if_true, pyWords]
    cases acc <;> simp [pyWordsAux]
  | cons x a ih =>
    intro acc b
    by_cases hx : isSp x = true
    · simp only [List.cons_append, pyWordsAux, hx, if_true]
      cases acc <;> simp [pyWordsAux, ih]
    · simp only [List.cons_append, pyWordsAux, hx, if_neg, Bool.false_eq_true,
        not_false_iff, if_false]
      exact ih (x :: acc) b

theorem pyWords_append_space {c : τ} (hc : isSp c = true) (a b : List τ) :
    pyWords isSp (a ++ c :: b) = pyWords isSp a ++ pyWords isSp b :=
  pyWordsAux_append_space hc a [] b

theorem pyWords_cons_space {c : τ} (hc : isSp c = true) (l : List τ) :
    pyWords isSp (c :: l) = pyWords isSp l := by
  simpa using pyWords_append_space hc [] l

theorem pyWords_append_space_right {c : τ} (hc : isSp c = true) (l : List τ) :
    pyWords isSp (l ++ [c]) = pyWords isSp l := by
  have h := pyWords_append_space hc l []
  simpa [pyWords, pyWordsAux] using h

theorem pyWordsAux_eq_nil_iff :
    ∀ (l acc : List τ),
      pyWordsAux isSp l acc = [] ↔ acc = [] ∧ ∀ y ∈ l, isSp y = true := by
  intro l
  induction l with
  | nil => intro acc; cases acc <;> simp [pyWordsAux]
  | cons c l ih =>
    intro acc
    by_cases hc : isSp c = true
    · simp only [pyWordsAux, hc, if_true]
      cases acc with
      | nil => simp [ih, hc]
      | cons a as => simp [hc]
    · simp only [pyWordsAux, hc, Bool.false_eq_true, not_false_iff, if_neg, ih]
      simp [hc]

theorem pyWords_eq_nil_iff (l : List τ) :
    pyWords isSp l = [] ↔ ∀ y ∈ l, isSp y = true := by
  simp [pyWords, pyWordsAux_eq_nil_iff]

theorem pyWords_ne_nil {l : List τ} {y : τ} (hy : y ∈ l) (h : isSp y = false) :
    pyWords isSp l ≠ [] := by
  intro hnil
  have h2 := (pyWords_eq_nil_iff l).mp hnil y hy
  rw [h] at h2
  exact Bool.false_ne_true h2

theorem pyWordsAux_all_nonspace :
    ∀ (w : List τ), (∀ y ∈ w, isSp y = false) → ∀ acc,
      pyWordsAux isSp w acc =
        if (acc.reverse ++ w).isEmpty then [] else [acc.reverse ++ w] := by
  intro w
  induction w with
  | nil => intro _ acc; cases acc <;> simp [pyWordsAux]
  | cons c w ih =>
    intro hw acc
    have hc : isSp c = false := hw c (List.mem_cons_self c w)
    simp only [pyWordsAux, hc, Bool.false_eq_true, not_false_iff, if_neg]
    rw [ih (fun y hy => hw y (List.mem_cons_of_mem c hy)) (c :: acc)]
    simp

theorem pyWords_single_word {w : List τ} (hne : w ≠ [])
    (hns : ∀ y ∈ w, isSp y = false) : pyWords isSp w = [w] := by
  rw [pyWords, pyWordsAux_all_nonspace w hns []]
  cases w with
  | nil => exact absurd rfl hne
  | cons c w => simp

theorem mem_pyWordsAux_spec :
    ∀ (l acc : List τ), (∀ y ∈ acc, isSp y = false) →
      ∀ w ∈ pyWordsAux isSp l acc, w ≠ [] ∧ ∀ y ∈ w, isSp y = false := by
  intro l
  induction l with
  | nil =>
    intro acc hacc w hw
    cases acc with
    | nil => simp [pyWordsAux] at hw
    | cons a as =>
      rw [pyWordsAux, List.isEmpty_cons] at hw
      simp only [Bool.false_eq_true, if_false, List.mem_singleton] at hw
      subst hw
      refine ⟨by simp, ?_⟩
      intro y hy
      exact hacc y (List.mem_reverse.mp hy)
  | cons c l ih =>
    intro acc hacc w hw
    by_cases hc : isSp c = true
    · rw [pyWordsAux, if_pos hc] at hw
      cases acc with
      | nil =>
        rw [List.isEmpty_nil, if_pos rfl] at hw
        exact ih [] (by simp) w hw
      | cons a as =>
        rw [List.isEmpty_cons] at hw
        simp only [Bool.false_eq_true, if_false, List.mem_cons] at hw
        rcases hw with heq | hw
        · subst heq
          refine ⟨by simp, ?_⟩
          intro y hy
          exact hacc y (List.mem_reverse.mp hy)
        · exact ih [] (by simp) w hw
    · rw [pyWordsAux, if_neg hc] at hw
      refine ih (c :: acc) ?_ w hw
      intro y hy
      rcases List.mem_cons.mp hy with rfl | hy
      · simpa using hc
      · exact hacc y hy

theorem mem_pyWords_spec {l w : List τ} (hw : w ∈ pyWords isSp l) :
    w ≠ [] ∧ ∀ y ∈ w, isSp y = false :=
  mem_pyWordsAux_spec l [] (by simp) w hw

theorem pyWords_dropWhile (l : List τ) :
    pyWords isSp (l.dropWhile isSp) = pyWords isSp l := by
  induction l with
  | nil => rfl
  | cons c l ih =>
    by_cases hc : isSp c = true
    · rw [List.dropWhile_cons_of_pos hc, ih, pyWords_cons_space hc]
    · rw [List.dropWhile_cons_of_neg (by simp [hc])]

theorem pyWords_append_all_space_right {b : List τ} (a : List τ)
    (hb : ∀ y ∈ b, isSp y = true) : pyWords isSp (a ++ b) = pyWords isSp a := by
  cases b with
  | nil => simp
  | cons c b =>
    rw [pyWords_append_space (hb c (List.mem_cons_self c b)) a b]
    have : pyWords isSp b = [] :=
      (pyWords_eq_nil_iff b).mpr (fun y hy => hb y (List.mem_cons_of_mem c hy))
    simp [this]

theorem pyStrip_length_le (l : List τ) : (pyStrip isSp l).length ≤ l.length := by
  unfold pyStrip
  calc ((l.dropWhile isSp).reverse.dropWhile isSp).reverse.length
      = ((l.dropWhile isSp).reverse.dropWhile isSp).length := by
        rw [List.length_reverse]
    _ ≤ (l.dropWhile isSp).reverse.length :=
        ((l.dropWhile isSp).reverse.dropWhile_sublist isSp).length_le
    _ = (l.dropWhile isSp).length := by rw [List.length_reverse]
    _ ≤ l.length := (l.dropWhile_sublist isSp).length_le

theorem pyStrip_words (l : List τ) :
    pyWords isSp (pyStrip isSp l) = pyWords isSp l := by
  unfold pyStrip
  set m := l.dropWhile isSp with hm
  have hsplit : (m.reverse.dropWhile isSp).reverse ++ (m.reverse.takeWhile isSp).reverse = m := by
    rw [← List.reverse_append, List.takeWhile_append_dropWhile, List.reverse_reverse]
  have hsp : ∀ y ∈ (m.reverse.takeWhile isSp).reverse, isSp y = true := by
    intro y hy
    exact List.mem_takeWhile_imp (List.mem_reverse.mp hy)
  calc pyWords isSp (m.reverse.dropWhile isSp).reverse
      = pyWords isSp ((m.reverse.dropWhile isSp).reverse ++
          (m.reverse.takeWhile isSp).reverse) :=
        (pyWords_append_all_space_right _ hsp).symm
    _ = pyWords isSp m := by rw [hsplit]
    _ = pyWords isSp l := by rw [hm, pyWords_dropWhile]

theorem pyStrip_word_sp {w : List τ} {u : τ} (hne : w ≠ [])
    (hns : ∀ y ∈ w, isSp y = false) (hu : isSp u = true) :
    pyStrip isSp (w ++ [u]) = w := by
  unfold pyStrip
  have h1 : (w ++ [u]).dropWhile isSp = w ++ [u] := by
    cases w with
    | nil => exact absurd rfl hne
    | cons x w' =>
      rw [List.cons_append]
      exact List.dropWhile_cons_of_neg (by simp [hns x (List.mem_cons_self x w')])
  rw [h1, List.reverse_append, List.reverse_singleton, List.singleton_append,
    List.dropWhile_cons_of_pos hu]
  cases hrw : w.reverse with
  | nil => exact absurd (by simpa using congrArg List.reverse hrw) hne
  | cons y t =>
    have hy : y ∈ w := by
      have : y ∈ w.reverse := by rw [hrw]; exact List.mem_cons_self y t
      exact List.mem_reverse.mp this
    rw [List.dropWhile_cons_of_neg (by simp [hns y hy]), ← hrw, List.reverse_reverse]

theorem pyStrip_append_sp {u : τ} (l : List τ) (hu : isSp u = true) :
    pyStrip isSp (l ++ [u]) = pyStrip isSp l := by
  unfold pyStrip
  by_cases h0 : l.dropWhile isSp = []
  · have h1 : (l ++ [u]).dropWhile isSp = [u].dropWhile isSp := by
      rw [List.dropWhile_append, h0]
      simp
    rw [h0, h1]
    simp [List.dropWhile_cons_of_pos hu]
  · have h1 : (l ++ [u]).dropWhile isSp = l.dropWhile isSp ++ [u] := by
      rw [List.dropWhile_append]
      simp [List.isEmpty_iff, h0]
    rw [h1, List.reverse_append, List.reverse_singleton, List.singleton_append,
      List.dropWhile_cons_of_pos hu]

/-! ### Lemma layer: the sentence splitter -/

variable {isTerm : τ → Bool}

theorem splitFold_skip :
    ∀ (l : List τ) (st : SState τ), (st.skipping = true → st.cur = []) →
      ((List.foldl (splitStep isTerm isSp) st l).skipping = true →
        (List.foldl (splitStep isTerm isSp) st l).cur = []) := by
  intro l
  induction l with
  | nil => intro st h; exact h
  | cons c l ih =>
    intro st h
    rw [List.foldl_cons]
    by_cases hskip : st.skipping = true
    · by_cases hc : isSp c = true
      · have hstep : splitStep isTerm isSp st c = st := by simp [splitStep, hskip, hc]
        rw [hstep]; exact ih st h
      · have hstep : splitStep isTerm isSp st c = ⟨st.done, [c], false⟩ := by
          simp [splitStep, hskip, hc]
        rw [hstep]; exact ih _ (by simp)
    · have hskip' : st.skipping = false := by simpa using hskip
      by_cases hm : ((match st.cur with | t :: _ => isTerm t | [] => false) && isSp c) = true
      · have hstep : splitStep isTerm isSp st c = ⟨st.done ++ [st.cur.reverse], [], true⟩ := by
          simp [splitStep, hskip', hm]
        rw [hstep]; exact ih _ (by simp)
      · have hstep : splitStep isTerm isSp st c = ⟨st.done, c :: st.cur, false⟩ := by
          simp [splitStep, hskip', hm]
        rw [hstep]; exact ih _ (by simp)

theorem splitFold_words :
    ∀ (l : List τ) (st : SState τ), (st.skipping = true → st.cur = []) →
      chunksWords isSp (List.foldl (splitStep isTerm isSp) st l).done ++
          pyWords isSp (List.foldl (splitStep isTerm isSp) st l).cur.reverse =
        chunksWords isSp st.done ++ pyWords isSp (st.cur.reverse ++ l) := by
  intro l
  induction l with
  | nil => intro st _; simp
  | cons c l ih =>
    intro st h
    rw [List.foldl_cons]
    by_cases hskip : st.skipping = true
    · have hcur : st.cur = [] := h hskip
      by_cases hc : isSp c = true
      · have hstep : splitStep isTerm isSp st c = st := by simp [splitStep, hskip, hc]
        rw [hstep, ih st h, hcur]
        simp [pyWords_cons_space hc]
      · have hstep : splitStep isTerm isSp st c = ⟨st.done, [c], false⟩ := by
          simp [splitStep, hskip, hc]
        rw [hstep, ih _ (by simp), hcur]
        simp
    · have hskip' : st.skipping = false := by simpa using hskip
      by_cases hm : ((match st.cur with | t :: _ => isTerm t | [] => false) && isSp c) = true
      · have hstep : splitStep isTerm isSp st c = ⟨st.done ++ [st.cur.reverse], [], true⟩ := by
          simp [splitStep, hskip', hm]
        have hc : isSp c = true := by
          rw [Bool.and_eq_true] at hm
          exact hm.2
        rw [hstep, ih _ (by simp)]
        simp [chunksWords, pyWords_append_space hc]
      · have hstep : splitStep isTerm isSp st c = ⟨st.done, c :: st.cur, false⟩ := by
          simp [splitStep, hskip', hm]
        rw [hstep, ih _ (by simp)]
        simp

theorem splitFold_done_grows :
    ∀ (l : List τ) (st : SState τ),
      ∃ ext, (List.foldl (splitStep isTerm isSp) st l).done = st.done ++ ext := by
  intro l
  induction l with
  | nil => intro st; exact ⟨[], by simp⟩
  | cons c l ih =>
    intro st
    rw [List.foldl_cons]
    obtain ⟨ext, hext⟩ := ih (splitStep isTerm isSp st c)
    rw [hext]
    by_cases hskip : st.skipping = true
    · by_cases hc : isSp c = true
      · exact ⟨ext, by simp [splitStep, hskip, hc]⟩
      · exact ⟨ext, by simp [splitStep, hskip, hc]⟩
    · have hskip' : st.skipping = false := by simpa using hskip
      by_cases hm : ((match st.cur with | t :: _ => isTerm t | [] => false) && isSp c) = true
      · exact ⟨[st.cur.reverse] ++ ext, by simp [splitStep, hskip', hm]⟩
      · exact ⟨ext, by simp [splitStep, hskip', hm]⟩

theorem splitFold_noSplit :
    ∀ (l : List τ) (st : SState τ), st.skipping = false →
      (List.foldl (splitStep isTerm isSp) st l).done = st.done →
      List.foldl (splitStep isTerm isSp) st l =
        ⟨st.done, l.reverse ++ st.cur, false⟩ := by
  intro l
  induction l with
  | nil =>
    intro st hskip _
    cases st with
    | mk done cur skipping =>
      simp only [List.foldl_nil, List.reverse_nil, List.nil_append]
      simp only at hskip
      rw [hskip]
  | cons c l ih =>
    intro st hskip hdone
    rw [List.foldl_cons] at hdone ⊢
    by_cases hm : ((match st.cur with | t :: _ => isTerm t | [] => false) && isSp c) = true
    · have hstep : splitStep isTerm isSp st c = ⟨st.done ++ [st.cur.reverse], [], true⟩ := by
        simp [splitStep, hskip, hm]
      rw [hstep] at hdone
      obtain ⟨ext, hext⟩ := @splitFold_done_grows τ isSp isTerm l
        ⟨st.done ++ [st.cur.reverse], [], true⟩
      rw [hext] at hdone
      simp only at hdone
      have := congrArg List.length hdone
      simp [List.length_append] at this
    · have hstep : splitStep isTerm isSp st c = ⟨st.done, c :: st.cur, false⟩ := by
        simp [splitStep, hskip, hm]
      rw [hstep] at hdone ⊢
      have hres := ih ⟨st.done, c :: st.cur, false⟩ rfl hdone
      rw [hres]
      simp

theorem splitRun_skip (text : List τ) :
    (splitRun isTerm isSp text).skipping = true →
    (splitRun isTerm isSp text).cur = [] :=
  splitFold_skip text ⟨[], [], false⟩ (by simp)

theorem splitRun_words (text : List τ) :
    chunksWords isSp (splitRun isTerm isSp text).done ++
      pyWords isSp (splitRun isTerm isSp text).cur.reverse = pyWords isSp text := by
  have hw := @splitFold_words τ isSp isTerm text
    ⟨[], [], false⟩ (by simp)
  simpa [splitRun, chunksWords] using hw

theorem splitRun_noSplit (text : List τ)
    (h : (splitRun isTerm isSp text).done = []) :
    splitRun isTerm isSp text = ⟨[], text.reverse, false⟩ := by
  have hres := @splitFold_noSplit τ isSp isTerm text
    ⟨[], [], false⟩ rfl (by simpa [splitRun] using h)
  simpa [splitRun] using hres

theorem sentSplit_singleton {text p : List τ}
    (h : sentSplit isTerm isSp text = [p]) : p = text := by
  unfold sentSplit at h
  cases hdone : (splitRun isTerm isSp text).done with
  | cons a as =>
    rw [hdone] at h
    have hlen := congrArg List.length h
    simp [List.length_append] at hlen
  | nil =>
    have hfin := @splitRun_noSplit τ isSp isTerm text hdone
    rw [hfin] at h
    simp only [List.nil_append] at h
    have h2 := List.cons.injEq _ _ _ _ ▸ h
    simp at h
    exact h.symm

theorem sentSplit_words (text : List τ) :
    chunksWords isSp (sentSplit isTerm isSp text) = pyWords isSp text := by
  have hw := @splitRun_words τ isSp isTerm text
  unfold sentSplit
  rw [chunksWords, List.map_append, List.flatten_append]
  by_cases hskip : (splitRun isTerm isSp text).skipping = true
  · have hcur := @splitRun_skip τ isSp isTerm text hskip
    rw [if_pos hskip]
    rw [hcur] at hw
    simpa [chunksWords] using hw
  · rw [if_neg hskip]
    simpa [chunksWords] using hw

theorem sentSplit_all_space_piece (hterm : ∀ t, isTerm t = true → isSp t = false)
    {text p : List τ} (hp : p ∈ sentSplit isTerm isSp text)
    (hws : pyWords isSp p = []) :
    p = [] ∨ (sentSplit isTerm isSp text = [text] ∧ p = text) := by
  have hinv :
      ∀ (l : List τ) (st : SState τ),
        (st.skipping = true → st.cur = []) →
        (∀ q ∈ st.done, ∃ y ∈ q, isSp y = false) →
        (st.done ≠ [] → st.skipping = false → ∃ y ∈ st.cur, isSp y = false) →
        ((List.foldl (splitStep isTerm isSp) st l).skipping = true →
            (List.foldl (splitStep isTerm isSp) st l).cur = []) ∧
        (∀ q ∈ (List.foldl (splitStep isTerm isSp) st l).done, ∃ y ∈ q, isSp y = false) ∧
        ((List.foldl (splitStep isTerm isSp) st l).done ≠ [] →
          (List.foldl (splitStep isTerm isSp) st l).skipping = false →
          ∃ y ∈ (List.foldl (splitStep isTerm isSp) st l).cur, isSp y = false) := by
    intro l
    induction l with
    | nil => intro st h1 h2 h3; exact ⟨h1, h2, h3⟩
    | cons c l ih =>
      intro st h1 h2 h3
      rw [List.foldl_cons]
      by_cases hskip : st.skipping = true
      · by_cases hc : isSp c = true
        · have hstep : splitStep isTerm isSp st c = st := by simp [splitStep, hskip, hc]
          rw [hstep]; exact ih st h1 h2 h3
        · have hstep : splitStep isTerm isSp st c = ⟨st.done, [c], false⟩ := by
            simp [splitStep, hskip, hc]
          rw [hstep]
          refine ih _ (by simp) h2 ?_
          intro _ _
          exact ⟨c, by simp, by simpa using hc⟩
      · have hskip' : st.skipping = false := by simpa using hskip
        by_cases hm : ((match st.cur with | t :: _ => isTerm t | [] => false) && isSp c) = true
        · have hstep : splitStep isTerm isSp st c = ⟨st.done ++ [st.cur.reverse], [], true⟩ := by
            simp [splitStep, hskip', hm]
          rw [hstep]
          refine ih _ (by simp) ?_ (by simp)
          intro q hq
          rcases List.mem_append.mp hq with hq | hq
          · exact h2 q hq
          · rw [List.mem_singleton.mp hq]
            rw [Bool.and_eq_true] at hm
            have hhead := hm.1
            cases hcur : st.cur with
            | nil => rw [hcur] at hhead; simp at hhead
            | cons t r =>
              rw [hcur] at hhead
              simp only at hhead
              exact ⟨t, by simp [hcur], hterm t hhead⟩
        · have hstep : splitStep isTerm isSp st c = ⟨st.done, c :: st.cur, false⟩ := by
            simp [splitStep, hskip', hm]
          rw [hstep]
          refine ih _ (by simp) h2 ?_
          intro hdone _
          simp only at hdone
          rcases h3 hdone hskip' with ⟨y, hy, hysp⟩
          exact ⟨y, List.mem_cons_of_mem c hy, hysp⟩
  have hR := hinv text ⟨[], [], false⟩ (by simp) (by simp) (by simp)
  rw [show List.foldl (splitStep isTerm isSp) (⟨[], [], false⟩ : SState τ) text
      = splitRun isTerm isSp text from rfl] at hR
  obtain ⟨hi1, hi2, hi3⟩ := hR
  unfold sentSplit at hp
  rcases List.mem_append.mp hp with hp2 | hp2
  · exfalso
    obtain ⟨y, hy, hysp⟩ := hi2 p hp2
    exact pyWords_ne_nil hy hysp hws
  · rw [List.mem_singleton.mp hp2]
    by_cases hskip : (splitRun isTerm isSp text).skipping = true
    · left
      rw [if_pos hskip]
    · right
      have hskip' : (splitRun isTerm isSp text).skipping = false := by simpa using hskip
      rw [if_neg hskip]
      cases hdone : (splitRun isTerm isSp text).done with
      | cons a as =>
        exfalso
        obtain ⟨y, hy, hysp⟩ := hi3 (by rw [hdone]; simp) hskip'
        have hne : pyWords isSp (splitRun isTerm isSp text).cur.reverse ≠ [] :=
          pyWords_ne_nil (List.mem_reverse.mpr hy) hysp
        rw [List.mem_singleton.mp hp2] at hws
        rw [if_neg hskip] at hws
        exact hne hws
      | nil =>
        have hfin := @splitRun_noSplit τ isSp isTerm text hdone
        constructor
        · unfold sentSplit
          rw [hfin]
          simp
        · rw [hfin]
          simp

theorem sentSplit_no_term {text : List τ} (h : ∀ y ∈ text, isTerm y = false) :
    sentSplit isTerm isSp text = [text] := by
  have haux :
      ∀ (l : List τ) (st : SState τ), st.skipping = false →
        (∀ y ∈ st.cur, isTerm y = false) → (∀ y ∈ l, isTerm y = false) →
        List.foldl (splitStep isTerm isSp) st l = ⟨st.done, l.reverse ++ st.cur, false⟩ := by
    intro l
    induction l with
    | nil =>
      intro st hskip _ _
      cases st with
      | mk done cur skipping =>
        simp only at hskip
        simp [hskip]
    | cons c l ih =>
      intro st hskip hcur hl
      rw [List.foldl_cons]
      have hm : ((match st.cur with | t :: _ => isTerm t | [] => false) && isSp c) = false := by
        cases hc : st.cur with
        | nil => simp
        | cons t r =>
          have hnt : isTerm t = false := hcur t (by simp [hc])
          simp [hnt]
      have hstep : splitStep isTerm isSp st c = ⟨st.done, c :: st.cur, false⟩ := by
        simp [splitStep, hskip, hm]
      rw [hstep]
      have hres := ih ⟨st.done, c :: st.cur, false⟩ rfl
        (by
          intro y hy
          rcases List.mem_cons.mp hy with rfl | hy
          · exact hl y (List.mem_cons_self y l)
          · exact hcur y hy)
        (fun y hy => hl y (List.mem_cons_of_mem c hy))
      rw [hres]
      simp
  have hfin : splitRun isTerm isSp text = ⟨[], text.reverse, false⟩ := by
    have hres := haux text ⟨[], [], false⟩ rfl (by simp) h
    simpa [splitRun] using hres
  unfold sentSplit
  rw [hfin]
  simp

/-! ### Lemma layer: the greedy chunk loops -/

theorem pyStrip_nil : pyStrip isSp ([] : List τ) = [] := rfl

theorem endsWithSpace_nil : endsWithSpace isSp ([] : List τ) := Or.inl rfl

theorem endsWithSpace_append_sp {sp : τ} (hsp : isSp sp = true) (l : List τ) :
    endsWithSpace isSp (l ++ [sp]) :=
  Or.inr ⟨l, sp, rfl, hsp⟩

theorem chunksWords_append (a b : List (List τ)) :
    chunksWords isSp (a ++ b) = chunksWords isSp a ++ chunksWords isSp b := by
  simp [chunksWords]

theorem chunksWords_singleton (x : List τ) :
    chunksWords isSp [x] = pyWords isSp x := by
  simp [chunksWords]

theorem chunksWords_flushCur (st : List (List τ) × List τ) :
    chunksWords isSp (flushCur isSp st) =
      chunksWords isSp st.1 ++ pyWords isSp st.2 := by
  unfold flushCur
  by_cases h : st.2.isEmpty
  · rw [if_pos h]
    have h2 : st.2 = [] := List.isEmpty_iff.mp h
    simp [h2, pyWords, pyWordsAux]
  · rw [if_neg h]
    rw [chunksWords_append, chunksWords_singleton, pyStrip_words]

theorem mem_flushCur {st : List (List τ) × List τ} {c : List τ}
    (hc : c ∈ flushCur isSp st) : c ∈ st.1 ∨ c = pyStrip isSp st.2 := by
  unfold flushCur at hc
  by_cases h : st.2.isEmpty
  · rw [if_pos h] at hc
    exact Or.inl hc
  · rw [if_neg h] at hc
    rcases List.mem_append.mp hc with hc | hc
    · exact Or.inl hc
    · exact Or.inr (List.mem_singleton.mp hc)

theorem pyWords_endsSp_append {sp : τ} (hsp : isSp sp = true) {cur : List τ}
    (he : endsWithSpace isSp cur) (X : List τ) :
    pyWords isSp (cur ++ X ++ [sp]) = pyWords isSp cur ++ pyWords isSp X := by
  rcases he with rfl | ⟨t, u, rfl, hu⟩
  · rw [List.nil_append, pyWords_append_space_right hsp]
    simp [pyWords, pyWordsAux]
  · have h1 : t ++ [u] ++ X ++ [sp] = t ++ u :: (X ++ [sp]) := by simp
    rw [h1, pyWords_append_space hu, pyWords_append_space_right hsp,
      pyWords_append_space_right hu]

theorem wordFold_spec {sp : τ} (hsp : isSp sp = true) (maxLen : Nat)
    (W : List (List τ)) :
    ∀ (ws : List (List τ)) (chunks : List (List τ)) (temp : List τ),
      (∀ w ∈ ws, w ≠ [] ∧ (∀ y ∈ w, isSp y = false) ∧ w ∈ W) →
      endsWithSpace isSp temp →
      chunkOkay maxLen W (pyStrip isSp temp) →
      (∀ c ∈ chunks, chunkOkay maxLen W c) →
      chunksWords isSp (List.foldl (wordStep isSp sp maxLen) (chunks, temp) ws).1 ++
          pyWords isSp (List.foldl (wordStep isSp sp maxLen) (chunks, temp) ws).2 =
        chunksWords isSp chunks ++ pyWords isSp temp ++ ws ∧
      endsWithSpace isSp (List.foldl (wordStep isSp sp maxLen) (chunks, temp) ws).2 ∧
      chunkOkay maxLen W
        (pyStrip isSp (List.foldl (wordStep isSp sp maxLen) (chunks, temp) ws).2) ∧
      (∀ c ∈ (List.foldl (wordStep isSp sp maxLen) (chunks, temp) ws).1,
        chunkOkay maxLen W c) ∧
      (ws ≠ [] → (List.foldl (wordStep isSp sp maxLen) (chunks, temp) ws).2 ≠ []) := by
  intro ws
  induction ws with
  | nil =>
    intro chunks temp _ he hok hchunks
    refine ⟨by simp, he, hok, hchunks, by simp⟩
  | cons w ws ih =>
    intro chunks temp hws he hok hchunks
    have hw := hws w (List.mem_cons_self w ws)
    have hws' : ∀ x ∈ ws, x ≠ [] ∧ (∀ y ∈ x, isSp y = false) ∧ x ∈ W :=
      fun x hx => hws x (List.mem_cons_of_mem w hx)
    rw [List.foldl_cons]
    by_cases hcond : maxLen < temp.length + w.length + 1
    · have hstep : wordStep isSp sp maxLen (chunks, temp) w =
          (chunks ++ [pyStrip isSp temp], w ++ [sp]) := by
        simp [wordStep, hcond]
      rw [hstep]
      have hok' : chunkOkay maxLen W (pyStrip isSp (w ++ [sp])) := by
        rw [pyStrip_word_sp hw.1 hw.2.1 hsp]
        by_cases hlen : w.length ≤ maxLen
        · exact Or.inl hlen
        · exact Or.inr ⟨by omega, hw.2.2⟩
      have hchunks' : ∀ c ∈ chunks ++ [pyStrip isSp temp], chunkOkay maxLen W c := by
        intro c hc
        rcases List.mem_append.mp hc with hc | hc
        · exact hchunks c hc
        · rw [List.mem_singleton.mp hc]; exact hok
      obtain ⟨hcontent, he2, hok2, hchunks2, hne2⟩ :=
        ih (chunks ++ [pyStrip isSp temp]) (w ++ [sp]) hws'
          (endsWithSpace_append_sp hsp w) hok' hchunks'
      refine ⟨?_, he2, hok2, hchunks2, ?_⟩
      · rw [hcontent, chunksWords_append, chunksWords_singleton, pyStrip_words,
          pyWords_append_space_right hsp, pyWords_single_word hw.1 hw.2.1]
        simp
      · intro _
        cases ws with
        | nil =>
          simp only [List.foldl_nil]
          simp
        | cons a b =>
          exact hne2 (by simp)
    · have hstep : wordStep isSp sp maxLen (chunks, temp) w =
          (chunks, temp ++ w ++ [sp]) := by
        simp [wordStep, hcond]
      rw [hstep]
      have hok' : chunkOkay maxLen W (pyStrip isSp (temp ++ w ++ [sp])) := by
        left
        have h1 := @pyStrip_length_le τ isSp (temp ++ w ++ [sp])
        have h2 : (temp ++ w ++ [sp]).length = temp.length + w.length + 1 := by
          simp [List.length_append]
          omega
        omega
      obtain ⟨hcontent, he2, hok2, hchunks2, hne2⟩ :=
        ih chunks (temp ++ w ++ [sp]) hws'
          (endsWithSpace_append_sp hsp (temp ++ w)) hok' hchunks
      refine ⟨?_, he2, hok2, hchunks2, ?_⟩
      · rw [hcontent, pyWords_endsSp_append hsp he w,
          pyWords_single_word hw.1 hw.2.1]
        simp
      · intro _
        cases ws with
        | nil =>
          simp only [List.foldl_nil]
          simp
        | cons a b =>
          exact hne2 (by simp)

theorem chunksWords_cons (s : List τ) (ss : List (List τ)) :
    chunksWords isSp (s :: ss) = pyWords isSp s ++ chunksWords isSp ss := by
  simp [chunksWords]

theorem sentFold_spec {sp : τ} (hsp : isSp sp = true) (maxLen : Nat)
    (W : List (List τ)) :
    ∀ (ss : List (List τ)) (chunks : List (List τ)) (current : List τ),
      (∀ s ∈ ss, (pyWords isSp s = [] → s = []) ∧ ∀ w ∈ pyWords isSp s, w ∈ W) →
      endsWithSpace isSp current →
      chunkOkay maxLen W (pyStrip isSp current) →
      (∀ c ∈ chunks, chunkOkay maxLen W c) →
      chunksWords isSp (List.foldl (sentenceStep isSp sp maxLen) (chunks, current) ss).1 ++
          pyWords isSp (List.foldl (sentenceStep isSp sp maxLen) (chunks, current) ss).2 =
        chunksWords isSp chunks ++ pyWords isSp current ++ chunksWords isSp ss ∧
      endsWithSpace isSp (List.foldl (sentenceStep isSp sp maxLen) (chunks, current) ss).2 ∧
      chunkOkay maxLen W
        (pyStrip isSp (List.foldl (sentenceStep isSp sp maxLen) (chunks, current) ss).2) ∧
      (∀ c ∈ (List.foldl (sentenceStep isSp sp maxLen) (chunks, current) ss).1,
        chunkOkay maxLen W c) := by
  intro ss
  induction ss with
  | nil =>
    intro chunks current _ he hok hchunks
    refine ⟨by simp [chunksWords], he, hok, hchunks⟩
  | cons s ss ih =>
    intro chunks current hss he hok hchunks
    have hs := hss s (List.mem_cons_self s ss)
    have hss' : ∀ x ∈ ss, (pyWords isSp x = [] → x = []) ∧ ∀ w ∈ pyWords isSp x, w ∈ W :=
      fun x hx => hss x (List.mem_cons_of_mem s hx)
    have hflush_ok : ∀ c ∈ flushCur isSp (chunks, current), chunkOkay maxLen W c := by
      intro c hc
      rcases mem_flushCur hc with hc | hc
      · exact hchunks c hc
      · rw [hc]; exact hok
    rw [List.foldl_cons]
    by_cases hcond : maxLen < current.length + s.length + 1
    · by_cases hlong : maxLen < s.length
      · -- over-long sentence: the word loop runs
        have hs_ne : pyWords isSp s ≠ [] := by
          intro hnil
          rw [hs.1 hnil] at hlong
          simp at hlong
        have hwords_props : ∀ w ∈ pyWords isSp s,
            w ≠ [] ∧ (∀ y ∈ w, isSp y = false) ∧ w ∈ W := by
          intro w hw
          obtain ⟨h1, h2⟩ := mem_pyWords_spec hw
          exact ⟨h1, h2, hs.2 w hw⟩
        have hw_all :=
          wordFold_spec hsp maxLen W (pyWords isSp s) (flushCur isSp (chunks, current)) []
            hwords_props endsWithSpace_nil
            (by rw [pyStrip_nil]; exact Or.inl (Nat.zero_le _)) hflush_ok
        rw [show List.foldl (wordStep isSp sp maxLen) (flushCur isSp (chunks, current), [])
              (pyWords isSp s)
            = wordSplitRes isSp sp maxLen (flushCur isSp (chunks, current)) s from rfl] at hw_all
        obtain ⟨hcw, hew, hokw, hchw, hnew⟩ := hw_all
        have hr2 : (wordSplitRes isSp sp maxLen (flushCur isSp (chunks, current)) s).2 ≠ [] :=
          hnew hs_ne
        have hR2e : (wordSplitRes isSp sp maxLen (flushCur isSp (chunks, current)) s).2.isEmpty
            = false := by
          cases h2e : (wordSplitRes isSp sp maxLen (flushCur isSp (chunks, current)) s).2.isEmpty
          · rfl
          · exact absurd (List.isEmpty_iff.mp h2e) hr2
        have hstep : sentenceStep isSp sp maxLen (chunks, current) s =
            ((wordSplitRes isSp sp maxLen (flushCur isSp (chunks, current)) s).1,
             (wordSplitRes isSp sp maxLen (flushCur isSp (chunks, current)) s).2) := by
          simp [sentenceStep, hcond, hlong, hR2e]
        rw [hstep]
        obtain ⟨hcontent, he2, hok2, hch2⟩ :=
          ih (wordSplitRes isSp sp maxLen (flushCur isSp (chunks, current)) s).1
            (wordSplitRes isSp sp maxLen (flushCur isSp (chunks, current)) s).2
            hss' hew hokw hchw
        refine ⟨?_, he2, hok2, hch2⟩
        rw [hcontent, hcw, chunksWords_flushCur, chunksWords_cons]
        simp [pyWords, pyWordsAux, List.append_assoc]
      · -- sentence fits on its own: flush and restart
        have hslen : s.length ≤ maxLen := by omega
        have hok' : chunkOkay maxLen W (pyStrip isSp (s ++ [sp])) := by
          rw [pyStrip_append_sp s hsp]
          exact Or.inl (le_trans (pyStrip_length_le s) hslen)
        have hstep : sentenceStep isSp sp maxLen (chunks, current) s =
            (flushCur isSp (chunks, current), s ++ [sp]) := by
          simp [sentenceStep, hcond, hlong]
        rw [hstep]
        obtain ⟨hcontent, he2, hok2, hch2⟩ :=
          ih (flushCur isSp (chunks, current)) (s ++ [sp]) hss'
            (endsWithSpace_append_sp hsp s) hok' hflush_ok
        refine ⟨?_, he2, hok2, hch2⟩
        rw [hcontent, chunksWords_flushCur, pyWords_append_space_right hsp,
          chunksWords_cons]
        simp [List.append_assoc]
    · -- sentence accumulates onto the current chunk
      have hok' : chunkOkay maxLen W (pyStrip isSp (current ++ s ++ [sp])) := by
        left
        have h1 := @pyStrip_length_le τ isSp (current ++ s ++ [sp])
        have h2 : (current ++ s ++ [sp]).length = current.length + s.length + 1 := by
          simp [List.length_append]
          omega
        omega
      have hstep : sentenceStep isSp sp maxLen (chunks, current) s =
          (chunks, current ++ s ++ [sp]) := by
        simp [sentenceStep, hcond]
      rw [hstep]
      obtain ⟨hcontent, he2, hok2, hch2⟩ :=
        ih chunks (current ++ s ++ [sp]) hss'
          (endsWithSpace_append_sp hsp (current ++ s)) hok' hchunks
      refine ⟨?_, he2, hok2, hch2⟩
      rw [hcontent, pyWords_endsSp_append hsp he s, chunksWords_cons]
      simp [List.append_assoc]

theorem chunkCore_small {sp : τ} {maxLen : Nat} {text : List τ}
    (h : text.length ≤ maxLen) :
    chunkCore isTerm isSp sp maxLen text = [text] := by
  simp [chunkCore, h]

theorem chunkCore_all_space_long {sp : τ} {maxLen : Nat} {text : List τ}
    (hterm : ∀ t, isTerm t = true → isSp t = false)
    (hws : ∀ y ∈ text, isSp y = true) (h : maxLen < text.length) :
    chunkCore isTerm isSp sp maxLen text = [] := by
  have hnoterm : ∀ y ∈ text, isTerm y = false := by
    intro y hy
    cases hT : isTerm y
    · rfl
    · have h2 := hterm y hT
      rw [hws y hy] at h2
      exact absurd h2 (by simp)
  have hpieces : sentSplit isTerm isSp text = [text] := sentSplit_no_term hnoterm
  have hwords : pyWords isSp text = [] := (pyWords_eq_nil_iff text).mpr hws
  have hc1 : maxLen < text.length + 1 := Nat.lt_succ_of_lt h
  unfold chunkCore
  rw [if_neg (by omega)]
  unfold chunkRun
  rw [hpieces, List.foldl_cons, List.foldl_nil]
  have hstep : sentenceStep isSp sp maxLen (([] : List (List τ)), ([] : List τ)) text
      = ([], []) := by
    simp [sentenceStep, hc1, h, wordSplitRes, hwords, flushCur]
  rw [hstep]
  simp [flushCur]

theorem chunkCore_words {sp : τ} (hsp : isSp sp = true)
    (hterm : ∀ t, isTerm t = true → isSp t = false) (maxLen : Nat) (text : List τ) :
    chunksWords isSp (chunkCore isTerm isSp sp maxLen text) = pyWords isSp text := by
  by_cases hlen : text.length ≤ maxLen
  · rw [chunkCore_small hlen, chunksWords_singleton]
  · have hlen' : maxLen < text.length := by omega
    by_cases hall : ∀ p ∈ sentSplit isTerm isSp text, pyWords isSp p = [] → p = []
    · have hmemW : ∀ s ∈ sentSplit isTerm isSp text, ∀ w ∈ pyWords isSp s,
          w ∈ pyWords isSp text := by
        intro s hsx w hw
        have hjoin := @sentSplit_words τ isSp isTerm text
        rw [← hjoin, chunksWords]
        exact List.mem_flatten.mpr ⟨pyWords isSp s, List.mem_map_of_mem _ hsx, hw⟩
      obtain ⟨hcontent, _, _, _⟩ :=
        sentFold_spec hsp maxLen (pyWords isSp text) (sentSplit isTerm isSp text) [] []
          (fun s hsx => ⟨hall s hsx, hmemW s hsx⟩) endsWithSpace_nil
          (by rw [pyStrip_nil]; exact Or.inl (Nat.zero_le _)) (by simp)
      unfold chunkCore
      rw [if_neg hlen, chunksWords_flushCur]
      unfold chunkRun
      rw [hcontent]
      have hjoin := @sentSplit_words τ isSp isTerm text
      simpa [chunksWords, pyWords, pyWordsAux] using hjoin
    · push_neg at hall
      obtain ⟨p, hp, hpw, hpne⟩ := hall
      rcases sentSplit_all_space_piece hterm hp hpw with hpe | ⟨hsingle, hpt⟩
      · exact absurd hpe hpne
      · rw [hpt] at hpw
        have hws2 : ∀ y ∈ text, isSp y = true := (pyWords_eq_nil_iff text).mp hpw
        rw [chunkCore_all_space_long hterm hws2 hlen']
        simp [chunksWords, hpw]

theorem chunkCore_bound {sp : τ} (hsp : isSp sp = true)
    (hterm : ∀ t, isTerm t = true → isSp t = false) (maxLen : Nat) (text : List τ) :
    ∀ c ∈ chunkCore isTerm isSp sp maxLen text,
      c.length ≤ maxLen ∨ (maxLen < c.length ∧ c ∈ pyWords isSp text) := by
  intro c hc
  by_cases hlen : text.length ≤ maxLen
  · rw [chunkCore_small hlen] at hc
    rw [List.mem_singleton.mp hc]
    exact Or.inl hlen
  · have hlen' : maxLen < text.length := by omega
    by_cases hall : ∀ p ∈ sentSplit isTerm isSp text, pyWords isSp p = [] → p = []
    · have hmemW : ∀ s ∈ sentSplit isTerm isSp text, ∀ w ∈ pyWords isSp s,
          w ∈ pyWords isSp text := by
        intro s hsx w hw
        have hjoin := @sentSplit_words τ isSp isTerm text
        rw [← hjoin, chunksWords]
        exact List.mem_flatten.mpr ⟨pyWords isSp s, List.mem_map_of_mem _ hsx, hw⟩
      obtain ⟨_, _, hok2, hch2⟩ :=
        sentFold_spec hsp maxLen (pyWords isSp text) (sentSplit isTerm isSp text) [] []
          (fun s hsx => ⟨hall s hsx, hmemW s hsx⟩) endsWithSpace_nil
          (by rw [pyStrip_nil]; exact Or.inl (Nat.zero_le _)) (by simp)
      unfold chunkCore at hc
      rw [if_neg hlen] at hc
      rcases mem_flushCur hc with hc2 | hc2
      · exact hch2 c hc2
      · rw [hc2]
        exact hok2
    · push_neg at hall
      obtain ⟨p, hp, hpw, hpne⟩ := hall
      rcases sentSplit_all_space_piece hterm hp hpw with hpe | ⟨hsingle, hpt⟩
      · exact absurd hpe hpne
      · rw [hpt] at hpw
        have hws2 : ∀ y ∈ text, isSp y = true := (pyWords_eq_nil_iff text).mp hpw
        rw [chunkCore_all_space_long hterm hws2 hlen'] at hc
        simp at hc

/-! ### Lemma layer: run accounting -/

theorem runFold_invariant {pid : String} (step : RunAcc → (Nat × String) → RunAcc)
    (hstep : ∀ acc p, step acc p = acc ∨
      ∃ b, step acc p = ⟨acc.files ++ [⟨output_dir pid, b⟩], acc.succ + 1⟩) :
    ∀ (l : List (Nat × String)) (acc : RunAcc),
      acc.files.length = acc.succ → (∀ f ∈ acc.files, f.dir = output_dir pid) →
      (List.foldl step acc l).files.length = (List.foldl step acc l).succ ∧
      (∀ f ∈ (List.foldl step acc l).files, f.dir = output_dir pid) := by
  intro l
  induction l with
  | nil => intro acc h1 h2; exact ⟨h1, h2⟩
  | cons p l ih =>
    intro acc h1 h2
    rw [List.foldl_cons]
    rcases hstep acc p with h | ⟨b, h⟩
    · rw [h]; exact ih acc h1 h2
    · rw [h]
      refine ih _ ?_ ?_
      · simp [h1]
      · intro f hf
        rcases List.mem_append.mp hf with hf | hf
        · exact h2 f hf
        · rw [List.mem_singleton.mp hf]

theorem langStep_shape {γ : Type} (env : TtsEnv) (useLocal : Bool)
    (chunkFn : List γ → List (List γ)) (isSpg : γ → Bool) (pid : String)
    (sections : String → Option (List γ)) (acc : RunAcc) (p : Nat × String) :
    langStep env useLocal chunkFn isSpg pid sections acc p = acc ∨
      ∃ b, langStep env useLocal chunkFn isSpg pid sections acc p =
        ⟨acc.files ++ [⟨output_dir pid, b⟩], acc.succ + 1⟩ := by
  unfold langStep
  cases sections p.2 with
  | none => exact Or.inl rfl
  | some t =>
    dsimp only
    by_cases h1 : pyTextBlank isSpg t = true
    · rw [if_pos h1]; exact Or.inl rfl
    · rw [if_neg h1]
      by_cases h2 : langUnitOk env useLocal chunkFn (unitBaseName p.1 p.2) t = true
      · rw [if_pos h2]; exact Or.inr ⟨unitBaseName p.1 p.2 ++ ".wav", rfl⟩
      · rw [if_neg h2]; exact Or.inl rfl

theorem engStep_shape (env : TtsEnv) (useLocal : Bool)
    (clean : List Char → List Char) (pid : String)
    (sections : String → Option (List Char)) (acc : RunAcc) (p : Nat × String) :
    engStep env useLocal clean pid sections acc p = acc ∨
      ∃ b, engStep env useLocal clean pid sections acc p =
        ⟨acc.files ++ [⟨output_dir pid, b⟩], acc.succ + 1⟩ := by
  unfold engStep
  cases sections p.2 with
  | none => exact Or.inl rfl
  | some t =>
    dsimp only
    by_cases h1 : pyTextBlank pySpaceChar t = true
    · rw [if_pos h1]; exact Or.inl rfl
    · rw [if_neg h1]
      by_cases h2 : (clean t).isEmpty = true
      · rw [if_pos h2]; exact Or.inl rfl
      · rw [if_neg h2]
        by_cases h3 : engUnitOk env useLocal (unitBaseName p.1 p.2) = true
        · rw [if_pos h3]; exact Or.inr ⟨unitBaseName p.1 p.2 ++ ".wav", rfl⟩
        · rw [if_neg h3]; exact Or.inl rfl

theorem hindiStep_shape (env : TtsEnv) (useLocal : Bool) (pid : String)
    (sections : String → Option (List Cluster)) (acc : RunAcc) (p : Nat × String) :
    hindiStep env useLocal pid sections acc p = acc ∨
      ∃ b, hindiStep env useLocal pid sections acc p =
        ⟨acc.files ++ [⟨output_dir pid, b⟩], acc.succ + 1⟩ := by
  unfold hindiStep
  cases sections p.2 with
  | none => exact Or.inl rfl
  | some t =>
    dsimp only
    by_cases h1 : pyTextBlank Cluster.isSpace t = true
    · rw [if_pos h1]; exact Or.inl rfl
    · rw [if_neg h1]
      by_cases h2 : hindiUnitOk env useLocal (unitBaseName p.1 p.2) t = true
      · rw [if_pos h2]; exact Or.inr ⟨unitBaseName p.1 p.2 ++ ".wav", rfl⟩
      · rw [if_neg h2]; exact Or.inl rfl

theorem langRunAcc_invariant {γ : Type} (env : TtsEnv) (useLocal : Bool)
    (chunkFn : List γ → List (List γ)) (isSpg : γ → Bool) (pid : String)
    (title : List γ) (sections : String → Option (List γ)) :
    (langRunAcc env useLocal chunkFn isSpg pid title sections).files.length =
      (langRunAcc env useLocal chunkFn isSpg pid title sections).succ ∧
    ∀ f ∈ (langRunAcc env useLocal chunkFn isSpg pid title sections).files,
      f.dir = output_dir pid := by
  unfold langRunAcc
  refine runFold_invariant _ (langStep_shape env useLocal chunkFn isSpg pid sections)
    enumSections (langTitleAcc env useLocal chunkFn isSpg pid title) ?_ ?_
  · unfold langTitleAcc
    split_ifs <;> simp
  · unfold langTitleAcc
    split_ifs <;> simp [APath.name]

theorem engRunAcc_invariant (env : TtsEnv) (useLocal : Bool)
    (clean : List Char → List Char) (pid : String) (title : List Char)
    (sections : String → Option (List Char)) :
    (engRunAcc env useLocal clean pid title sections).files.length =
      (engRunAcc env useLocal clean pid title sections).succ ∧
    ∀ f ∈ (engRunAcc env useLocal clean pid title sections).files,
      f.dir = output_dir pid := by
  unfold engRunAcc
  refine runFold_invariant _ (engStep_shape env useLocal clean pid sections)
    enumSections (engTitleAcc env useLocal clean pid title) ?_ ?_
  · unfold engTitleAcc
    split_ifs <;> simp
  · unfold engTitleAcc
    split_ifs <;> simp [APath.name]

theorem hindiRunAcc_invariant (env : TtsEnv) (useLocal : Bool) (pid : String)
    (title : List Cluster) (sections : String → Option (List Cluster)) :
    (hindiRunAcc env useLocal pid title sections).files.length =
      (hindiRunAcc env useLocal pid title sections).succ ∧
    ∀ f ∈ (hindiRunAcc env useLocal pid title sections).files,
      f.dir = output_dir pid := by
  unfold hindiRunAcc
  refine runFold_invariant _ (hindiStep_shape env useLocal pid sections)
    enumSections (hindiTitleAcc env useLocal pid title) ?_ ?_
  · unfold hindiTitleAcc
    split_ifs <;> simp
  · unfold hindiTitleAcc
    split_ifs <;> simp [APath.name]

/-! ### Instantiation facts for the three chunkers -/

theorem simpleTerm_not_space : ∀ c, simpleTermChar c = true → pySpaceChar c = false := by
  intro c h
  simp only [simpleTermChar, Bool.or_eq_true, decide_eq_true_eq] at h
  rcases h with (h | h) | h <;> subst h <;> rfl

theorem clusterStop_not_space :
    ∀ t, Cluster.isStop t = true → Cluster.isSpace t = false := by
  intro t h
  cases t with
  | space c => simp [Cluster.isStop] at h
  | stop c => rfl
  | txt s => simp [Cluster.isStop] at h

/-! ### Claim theorems -/

/-- C1: for every input text whose length exceeds the bound, concatenating the
chunks returned by the chunker (`chunk_text_by_language`, either branch, or
`chunk_hindi_text`) in order, with runs of whitespace normalized (that is,
comparing word sequences), reproduces the whitespace-normalized content of the
original text; no text is lost or reordered. -/
theorem C1_chunks_reconstruct_text (maxLen : Nat) :
    (∀ text : List Char, maxLen < text.length →
      chunksWords pySpaceChar (chunk_text_by_language_simple maxLen text) =
        pyWords pySpaceChar text) ∧
    (∀ text : List Cluster, maxLen < text.length →
      chunksWords Cluster.isSpace (chunk_text_by_language_complex maxLen text) =
        pyWords Cluster.isSpace text) ∧
    (∀ text : List Cluster, maxLen < text.length →
      chunksWords Cluster.isSpace (chunk_hindi_text maxLen text) =
        pyWords Cluster.isSpace text) := by
  refine ⟨?_, ?_, ?_⟩ <;> intro text _
  · exact chunkCore_words rfl simpleTerm_not_space maxLen text
  · exact chunkCore_words rfl clusterStop_not_space maxLen text
  · exact chunkCore_words rfl clusterStop_not_space maxLen text

/-- Witness for C1 at a concrete over-long input. -/
theorem C1_witness :
    3 < "ab. cd.".data.length ∧
    chunksWords pySpaceChar (chunk_text_by_language_simple 3 "ab. cd.".data) =
      pyWords pySpaceChar "ab. cd.".data :=
  ⟨by decide, (C1_chunks_reconstruct_text 3).1 "ab. cd.".data (by decide)⟩

/-- C2: every chunk returned by the chunker has length at most `max_length`
(in grapheme clusters for the complex-script branches, where a text is a list
of cluster atoms so a cluster can never be split across chunks; in code units
for the simple branch), except a chunk that is a single whitespace-free word
of the text which itself exceeds the bound. -/
theorem C2_chunk_length_bound (maxLen : Nat) :
    (∀ (text : List Char), ∀ c ∈ chunk_text_by_language_simple maxLen text,
      c.length ≤ maxLen ∨ (maxLen < c.length ∧ c ∈ pyWords pySpaceChar text)) ∧
    (∀ (text : List Cluster), ∀ c ∈ chunk_text_by_language_complex maxLen text,
      c.length ≤ maxLen ∨ (maxLen < c.length ∧ c ∈ pyWords Cluster.isSpace text)) ∧
    (∀ (text : List Cluster), ∀ c ∈ chunk_hindi_text maxLen text,
      c.length ≤ maxLen ∨ (maxLen < c.length ∧ c ∈ pyWords Cluster.isSpace text)) := by
  refine ⟨?_, ?_, ?_⟩ <;> intro text
  · exact chunkCore_bound rfl simpleTerm_not_space maxLen text
  · exact chunkCore_bound rfl clusterStop_not_space maxLen text
  · exact chunkCore_bound rfl clusterStop_not_space maxLen text

/-- Witness for C2 at a concrete input whose over-long word survives whole. -/
theorem C2_witness :
    "abcdefg".data ∈ chunk_text_by_language_simple 4 "abcdefg hi".data ∧
    ("abcdefg".data.length ≤ 4 ∨
      (4 < "abcdefg".data.length ∧
        "abcdefg".data ∈ pyWords pySpaceChar "abcdefg hi".data)) :=
  ⟨by decide,
    (C2_chunk_length_bound 4).1 "abcdefg hi".data "abcdefg".data (by decide)⟩

/-- C3 counterexample: for the two-code-unit input `" a"` (within the bound
500) the chunker returns the single chunk `" a"` unchanged, which is not the
trimmed input `"a"`; so the claim that the single returned chunk equals the
trimmed input is false on the code. -/
theorem C3_counterexample :
    chunk_text_by_language_simple 500 " a".data = [" a".data] ∧
    " a".data ≠ pyStrip pySpaceChar " a".data := by
  constructor
  · decide
  · decide

/-- C3 amended: for every input text whose length is at most `max_length`, the
chunker returns exactly one chunk, and that chunk equals the input text
exactly as given (the code performs no trimming in this path). -/
theorem C3_amended_short_input_single_chunk :
    (∀ (maxLen : Nat) (text : List Char), text.length ≤ maxLen →
      chunk_text_by_language_simple maxLen text = [text]) ∧
    (∀ (maxLen : Nat) (text : List Cluster), text.length ≤ maxLen →
      chunk_text_by_language_complex maxLen text = [text]) ∧
    (∀ (maxLen : Nat) (text : List Cluster), text.length ≤ maxLen →
      chunk_hindi_text maxLen text = [text]) := by
  refine ⟨?_, ?_, ?_⟩ <;> intro maxLen text h <;> exact chunkCore_small h

/-- Witness for the amended C3 at a concrete short input. -/
theorem C3_witness :
    "hi".data.length ≤ 500 ∧
    chunk_text_by_language_simple 500 "hi".data = ["hi".data] :=
  ⟨by decide, C3_amended_short_input_single_chunk.1 500 "hi".data (by decide)⟩

/-- C4 counterexample: the empty input is within every bound, so
`chunk_hindi_text` returns the one-element list containing the empty chunk,
not the empty sequence of chunks the claim requires. -/
theorem C4_counterexample :
    chunk_hindi_text 450 ([] : List Cluster) = [[]] ∧
    ([[]] : List (List Cluster)) ≠ [] := by
  constructor
  · decide
  · simp

/-- C4 amended: an empty or whitespace-only input yields the one-element
sequence containing the input unchanged when its length is at most the bound,
and the empty sequence when a whitespace-only input exceeds the bound. -/
theorem C4_amended_blank_input (maxLen : Nat) :
    (∀ text : List Char, (∀ y ∈ text, pySpaceChar y = true) →
      (text.length ≤ maxLen → chunk_text_by_language_simple maxLen text = [text]) ∧
      (maxLen < text.length → chunk_text_by_language_simple maxLen text = [])) ∧
    (∀ text : List Cluster, (∀ y ∈ text, Cluster.isSpace y = true) →
      (text.length ≤ maxLen → chunk_text_by_language_complex maxLen text = [text]) ∧
      (maxLen < text.length → chunk_text_by_language_complex maxLen text = [])) ∧
    (∀ text : List Cluster, (∀ y ∈ text, Cluster.isSpace y = true) →
      (text.length ≤ maxLen → chunk_hindi_text maxLen text = [text]) ∧
      (maxLen < text.length → chunk_hindi_text maxLen text = [])) := by
  refine ⟨?_, ?_, ?_⟩ <;> intro text hws <;>
    refine ⟨fun h => chunkCore_small h, fun h => ?_⟩
  · exact chunkCore_all_space_long simpleTerm_not_space hws h
  · exact chunkCore_all_space_long clusterStop_not_space hws h
  · exact chunkCore_all_space_long clusterStop_not_space hws h

/-- Witness for the amended C4 at a concrete whitespace-only over-long
input. -/
theorem C4_witness :
    (∀ y ∈ "  ".data, pySpaceChar y = true) ∧ 1 < "  ".data.length ∧
    chunk_text_by_language_simple 1 "  ".data = [] :=
  ⟨by decide, by decide,
    ((C4_amended_blank_input 1).1 "  ".data (by decide)).2 (by decide)⟩

/-- C9: the default chunk-size bound is 450 (grapheme clusters) exactly for
the languages the chunker treats as complex-script, and 500 (code units) for
every other language; the complex-script bound is strictly smaller. -/
theorem C9_chunk_size_defaults :
    (∀ lang : String, complex_script_languages.contains (lowerStr lang) = true →
      get_chunk_size_for_language lang = 450) ∧
    (∀ lang : String, complex_script_languages.contains (lowerStr lang) = false →
      get_chunk_size_for_language lang = 500) ∧
    450 < 500 := by
  refine ⟨?_, ?_, by omega⟩ <;> intro lang h <;>
    unfold get_chunk_size_for_language <;> rw [h] <;> simp

/-- Witness for C9 at the concrete languages `"Hindi"` and `"Tamil"`. -/
theorem C9_witness :
    complex_script_languages.contains (lowerStr "Hindi") = true ∧
    get_chunk_size_for_language "Hindi" = 450 ∧
    complex_script_languages.contains (lowerStr "Tamil") = false ∧
    get_chunk_size_for_language "Tamil" = 500 :=
  ⟨by decide, C9_chunk_size_defaults.1 "Hindi" (by decide),
   by decide, C9_chunk_size_defaults.2.1 "Tamil" (by decide)⟩

/-- C10: language-code resolution round-trips: whenever `get_language_code`
returns a code, that code is itself supported and maps to itself
(idempotence); and `get_language_code` returns `none` exactly when
`is_language_supported` is false. -/
theorem C10_language_code_round_trip (L : String) :
    (∀ c, get_language_code L = some c →
      is_language_supported c = true ∧ get_language_code c = some c) ∧
    (get_language_code L = none ↔ is_language_supported L = false) := by
  have hval : ∀ pr ∈ SUPPORTED_LANGUAGES,
      is_language_supported pr.2 = true ∧ get_language_code pr.2 = some pr.2 := by
    decide
  constructor
  · intro c hc
    unfold get_language_code at hc
    cases hfind : SUPPORTED_LANGUAGES.find? (fun p => p.1 == L) with
    | some pr =>
      rw [hfind] at hc
      simp only [Option.some.injEq] at hc
      subst hc
      exact hval pr (List.mem_of_find?_eq_some hfind)
    | none =>
      rw [hfind] at hc
      by_cases hv : SUPPORTED_LANGUAGES.any (fun p => p.2 == L) = true
      · rw [if_pos hv] at hc
        simp only [Option.some.injEq] at hc
        subst hc
        obtain ⟨pr, hpr, hpr2⟩ := List.any_eq_true.mp hv
        have hpl : pr.2 = L := by simpa using hpr2
        rw [← hpl]
        exact hval pr hpr
      · rw [if_neg hv] at hc
        exact absurd hc (by simp)
  · constructor
    · intro hnone
      unfold get_language_code at hnone
      cases hfind : SUPPORTED_LANGUAGES.find? (fun p => p.1 == L) with
      | some pr => rw [hfind] at hnone; simp at hnone
      | none =>
        rw [hfind] at hnone
        by_cases hv : SUPPORTED_LANGUAGES.any (fun p => p.2 == L) = true
        · rw [if_pos hv] at hnone; simp at hnone
        · unfold is_language_supported
          have h1 : SUPPORTED_LANGUAGES.any (fun p => p.1 == L) = false := by
            rw [List.any_eq_false]
            intro pr hpr
            have h3 := List.find?_eq_none.mp hfind pr hpr
            simpa using h3
          have h2 : SUPPORTED_LANGUAGES.any (fun p => p.2 == L) = false := by
            rw [← Bool.not_eq_true]
            exact hv
          rw [h1, h2]
          rfl
    · intro hsup
      unfold is_language_supported at hsup
      rw [Bool.or_eq_false_iff] at hsup
      unfold get_language_code
      cases hfind : SUPPORTED_LANGUAGES.find? (fun p => p.1 == L) with
      | some pr =>
        exfalso
        have hmem := List.mem_of_find?_eq_some hfind
        have hkey := List.find?_some hfind
        have h1 := hsup.1
        rw [List.any_eq_false] at h1
        exact absurd hkey (h1 pr hmem)
      | none =>
        rw [if_neg (by simp [hsup.2])]

/-- Witness for C10 at the concrete language name `"Hindi"`. -/
theorem C10_witness :
    get_language_code "Hindi" = some "hi" ∧
    is_language_supported "hi" = true ∧ get_language_code "hi" = some "hi" :=
  ⟨by decide, (C10_language_code_round_trip "Hindi").1 "hi" (by decide)⟩

/-- C6: backend selection — a blank credential selects local mode
unconditionally; with a credential supplied, cloud mode is selected exactly
when the client constructs and the connectivity probe returns success, and
any failure falls back to local mode; and the resolution is computed once per
run (`use_local_tts key env`) and reused for every unit and chunk of
`ensure_language_audio_is_generated`. -/
theorem C6_backend_selection (key : String) (env : TtsEnv) :
    (pyBlank key = true → use_local_tts key env = true) ∧
    (pyBlank key = false →
      (use_local_tts key env = false ↔
        env.clientInit = true ∧ env.probe = ProbeOutcome.ok)) ∧
    (∀ (γ : Type) (language : String) (chunkFn : List γ → List (List γ))
        (isSpg : γ → Bool) (pid : String) (title : List γ)
        (sections : String → Option (List γ)),
      ensure_language_audio_is_generated key env language chunkFn isSpg pid
          title sections =
        if is_language_supported language = false then
          Except.error ("Unsupported language: " ++ language)
        else if (langRunAcc env (use_local_tts key env) chunkFn isSpg pid title
            sections).succ = 0 then
          Except.error ("No " ++ language ++ " audio files were generated successfully")
        else
          Except.ok ((langRunAcc env (use_local_tts key env) chunkFn isSpg pid
            title sections).files.map APath.name)) := by
  refine ⟨?_, ?_, ?_⟩
  · intro h
    simp [use_local_tts, h]
  · intro h
    unfold use_local_tts
    rw [if_neg (by simp [h])]
    cases hci : env.clientInit
    · simp
    · cases hp : env.probe <;> simp
  · intro γ language chunkFn isSpg pid title sections
    rfl

/-- Witness for C6 at a blank key and at a supplied key with a
successful probe. -/
theorem C6_witness :
    pyBlank "" = true ∧
    use_local_tts ""
      ⟨true, ProbeOutcome.ok, fun _ => true, fun _ _ => SynthOutcome.bytes 1,
        fun _ => true, fun _ => true⟩ = true ∧
    pyBlank "key" = false ∧
    (use_local_tts "key"
      ⟨true, ProbeOutcome.ok, fun _ => true, fun _ _ => SynthOutcome.bytes 1,
        fun _ => true, fun _ => true⟩ = false ↔
      (⟨true, ProbeOutcome.ok, fun _ => true, fun _ _ => SynthOutcome.bytes 1,
        fun _ => true, fun _ => true⟩ : TtsEnv).clientInit = true ∧
      (⟨true, ProbeOutcome.ok, fun _ => true, fun _ _ => SynthOutcome.bytes 1,
        fun _ => true, fun _ => true⟩ : TtsEnv).probe = ProbeOutcome.ok) :=
  ⟨by decide,
   (C6_backend_selection ""
     ⟨true, ProbeOutcome.ok, fun _ => true, fun _ _ => SynthOutcome.bytes 1,
       fun _ => true, fun _ => true⟩).1 (by decide),
   by decide,
   (C6_backend_selection "key"
     ⟨true, ProbeOutcome.ok, fun _ => true, fun _ _ => SynthOutcome.bytes 1,
       fun _ => true, fun _ => true⟩).2.1 (by decide)⟩

/-- C7: per-chunk synthesis failure is contained — a segment file is written
for chunk `k` exactly when its own synthesis call returned non-empty bytes
(an empty-byte response or a raised exception only skips that chunk), and
whether chunk `k` is written is independent of the outcome of any other
chunk `j`. -/
theorem C7_chunk_failure_contained :
    (∀ (env : TtsEnv) (base : String) (n k : Nat),
      k ∈ chunkFiles env base n ↔
        k < n ∧ synthWrote (env.synth base k) = true) ∧
    (∀ (env env' : TtsEnv) (base : String) (n j k : Nat),
      (∀ m, m ≠ j → env'.synth base m = env.synth base m) → k ≠ j →
      (k ∈ chunkFiles env' base n ↔ k ∈ chunkFiles env base n)) := by
  have hmem : ∀ (env : TtsEnv) (base : String) (n k : Nat),
      k ∈ chunkFiles env base n ↔
        k < n ∧ synthWrote (env.synth base k) = true := by
    intro env base n k
    simp [chunkFiles, List.mem_filter]
  refine ⟨hmem, ?_⟩
  intro env env' base n j k hagree hk
  rw [hmem, hmem, hagree k hk]

/-- Witness for C7: chunk 1 raising does not stop chunk 0 or chunk 2 from
being written. -/
theorem C7_witness :
    (∀ m, m ≠ 1 →
      (⟨true, ProbeOutcome.ok, fun _ => true,
        fun _ j => if j = 1 then SynthOutcome.bytes 9 else SynthOutcome.bytes 5,
        fun _ => true, fun _ => true⟩ : TtsEnv).synth "b" m =
      (⟨true, ProbeOutcome.ok, fun _ => true,
        fun _ j => if j = 1 then SynthOutcome.raised else SynthOutcome.bytes 5,
        fun _ => true, fun _ => true⟩ : TtsEnv).synth "b" m) ∧
    (2 ∈ chunkFiles
      ⟨true, ProbeOutcome.ok, fun _ => true,
        fun _ j => if j = 1 then SynthOutcome.bytes 9 else SynthOutcome.bytes 5,
        fun _ => true, fun _ => true⟩ "b" 3 ↔
     2 ∈ chunkFiles
      ⟨true, ProbeOutcome.ok, fun _ => true,
        fun _ j => if j = 1 then SynthOutcome.raised else SynthOutcome.bytes 5,
        fun _ => true, fun _ => true⟩ "b" 3) :=
  ⟨fun m hm => by simp [hm],
   C7_chunk_failure_contained.2
     ⟨true, ProbeOutcome.ok, fun _ => true,
       fun _ j => if j = 1 then SynthOutcome.raised else SynthOutcome.bytes 5,
       fun _ => true, fun _ => true⟩
     ⟨true, ProbeOutcome.ok, fun _ => true,
       fun _ j => if j = 1 then SynthOutcome.bytes 9 else SynthOutcome.bytes 5,
       fun _ => true, fun _ => true⟩
     "b" 3 1 2 (fun m hm => by simp [hm]) (by decide)⟩

/-- C8 counterexample: in the Hindi assembly path a unit with exactly one
synthesized segment is still assembled by invoking the concatenation tool on
a one-file manifest, not by copying the segment file directly, refuting the
claim's single-segment-copy behavior for `ensure_hindi_audio_is_generated`. -/
theorem C8_counterexample :
    hindiAssembleFiles true [5] = some (UnitAudio.concatenated [5]) ∧
    some (UnitAudio.concatenated [5]) ≠ some (UnitAudio.copied 5) := by
  exact ⟨rfl, by decide⟩

/-- C8 amended: in `generate_audio_from_chunks` a single-segment unit is
copied directly and a multi-segment unit is concatenated with ffmpeg, falling
back to a copy of the first segment on tool failure; in the Hindi path the
concatenation tool is invoked for every non-empty segment list (even a single
segment), with the same first-segment fallback; in all cases a non-empty
segment list yields an output file. -/
theorem C8_amended_assembly (ffOk : Bool) (j : Nat) (rest fs : List Nat) :
    assembleFiles ffOk [j] = some (UnitAudio.copied j) ∧
    (rest ≠ [] →
      assembleFiles ffOk (j :: rest) =
        some (if ffOk then UnitAudio.concatenated (j :: rest)
              else UnitAudio.fallbackCopy j)) ∧
    (hindiAssembleFiles ffOk (j :: rest) =
      some (if ffOk then UnitAudio.concatenated (j :: rest)
            else UnitAudio.fallbackCopy j)) ∧
    (fs ≠ [] →
      (assembleFiles ffOk fs).isSome ∧ (hindiAssembleFiles ffOk fs).isSome) := by
  refine ⟨rfl, ?_, ?_, ?_⟩
  · intro h
    cases rest with
    | nil => exact absurd rfl h
    | cons a b => cases ffOk <;> simp [assembleFiles]
  · cases ffOk <;> simp [hindiAssembleFiles]
  · intro h
    cases fs with
    | nil => exact absurd rfl h
    | cons a b =>
      cases b with
      | nil => cases ffOk <;> simp [assembleFiles, hindiAssembleFiles]
      | cons a2 b2 => cases ffOk <;> simp [assembleFiles, hindiAssembleFiles]

/-- Witness for the amended C8 at concrete segment lists. -/
theorem C8_witness :
    assembleFiles true [3] = some (UnitAudio.copied 3) ∧
    assembleFiles false (3 :: [4]) =
      some (if false then UnitAudio.concatenated (3 :: [4])
            else UnitAudio.fallbackCopy 3) ∧
    (assembleFiles true [7]).isSome ∧ (hindiAssembleFiles true [7]).isSome :=
  ⟨(C8_amended_assembly true 3 [] []).1,
   (C8_amended_assembly false 3 [4] []).2.1 (by decide),
   (C8_amended_assembly true 9 [] [7]).2.2.2 (by decide)⟩

/-- C5: each audio-generation run (`ensure_audio_is_generated`,
`ensure_hindi_audio_is_generated`, `ensure_language_audio_is_generated`)
raises an error exactly when zero units (title or sections) produced an audio
file; when at least one unit succeeded it instead returns the list of
produced audio file names, each situated in the run's output directory. -/
theorem C5_run_error_iff_no_audio :
    (∀ (key : String) (env : TtsEnv) (clean : List Char → List Char)
        (pid : String) (title : List Char)
        (sections : String → Option (List Char)),
      ((∃ e, ensure_audio_is_generated key env clean pid title sections =
          Except.error e) ↔
        (engRunAcc env (use_local_tts key env) clean pid title sections).files = []) ∧
      ((engRunAcc env (use_local_tts key env) clean pid title sections).files ≠ [] →
        ensure_audio_is_generated key env clean pid title sections =
          Except.ok ((engRunAcc env (use_local_tts key env) clean pid title
            sections).files.map APath.name)) ∧
      (∀ f ∈ (engRunAcc env (use_local_tts key env) clean pid title sections).files,
        f.dir = output_dir pid)) ∧
    (∀ (key : String) (env : TtsEnv) (pid : String) (title : List Cluster)
        (sections : String → Option (List Cluster)),
      ((∃ e, ensure_hindi_audio_is_generated key env pid title sections =
          Except.error e) ↔
        (hindiRunAcc env (use_local_tts key env) pid title sections).files = []) ∧
      ((hindiRunAcc env (use_local_tts key env) pid title sections).files ≠ [] →
        ensure_hindi_audio_is_generated key env pid title sections =
          Except.ok ((hindiRunAcc env (use_local_tts key env) pid title
            sections).files.map APath.name)) ∧
      (∀ f ∈ (hindiRunAcc env (use_local_tts key env) pid title sections).files,
        f.dir = output_dir pid)) ∧
    (∀ (γ : Type) (key : String) (env : TtsEnv) (language : String)
        (chunkFn : List γ → List (List γ)) (isSpg : γ → Bool) (pid : String)
        (title : List γ) (sections : String → Option (List γ)),
      ((∃ e, ensure_language_audio_is_generated key env language chunkFn isSpg
          pid title sections = Except.error e) ↔
        langRunProduced key env language chunkFn isSpg pid title sections = []) ∧
      (langRunProduced key env language chunkFn isSpg pid title sections ≠ [] →
        ensure_language_audio_is_generated key env language chunkFn isSpg pid
          title sections =
          Except.ok ((langRunProduced key env language chunkFn isSpg pid title
            sections).map APath.name)) ∧
      (∀ f ∈ langRunProduced key env language chunkFn isSpg pid title sections,
        f.dir = output_dir pid)) := by
  refine ⟨?_, ?_, ?_⟩
  · intro key env clean pid title sections
    obtain ⟨hlen, hdir⟩ :=
      engRunAcc_invariant env (use_local_tts key env) clean pid title sections
    have hfe : (engRunAcc env (use_local_tts key env) clean pid title
        sections).files = [] ↔
        (engRunAcc env (use_local_tts key env) clean pid title sections).succ = 0 := by
      constructor
      · intro h
        rw [← hlen, h]
        rfl
      · intro h
        rw [h] at hlen
        exact List.length_eq_zero.mp hlen
    refine ⟨?_, ?_, hdir⟩
    · unfold ensure_audio_is_generated
      by_cases hz : (engRunAcc env (use_local_tts key env) clean pid title
          sections).succ = 0
      · rw [if_pos hz]
        simp [hfe.mpr hz]
      · rw [if_neg hz]
        simp [hfe, hz]
    · intro hne
      unfold ensure_audio_is_generated
      rw [if_neg (fun hz => hne (hfe.mpr hz))]
  · intro key env pid title sections
    obtain ⟨hlen, hdir⟩ :=
      hindiRunAcc_invariant env (use_local_tts key env) pid title sections
    have hfe : (hindiRunAcc env (use_local_tts key env) pid title
        sections).files = [] ↔
        (hindiRunAcc env (use_local_tts key env) pid title sections).succ = 0 := by
      constructor
      · intro h
        rw [← hlen, h]
        rfl
      · intro h
        rw [h] at hlen
        exact List.length_eq_zero.mp hlen
    refine ⟨?_, ?_, hdir⟩
    · unfold ensure_hindi_audio_is_generated
      by_cases hz : (hindiRunAcc env (use_local_tts key env) pid title
          sections).succ = 0
      · rw [if_pos hz]
        simp [hfe.mpr hz]
      · rw [if_neg hz]
        simp [hfe, hz]
    · intro hne
      unfold ensure_hindi_audio_is_generated
      rw [if_neg (fun hz => hne (hfe.mpr hz))]
  · intro γ key env language chunkFn isSpg pid title sections
    obtain ⟨hlen, hdir⟩ :=
      langRunAcc_invariant env (use_local_tts key env) chunkFn isSpg pid title
        sections
    have hfe : (langRunAcc env (use_local_tts key env) chunkFn isSpg pid title
        sections).files = [] ↔
        (langRunAcc env (use_local_tts key env) chunkFn isSpg pid title
          sections).succ = 0 := by
      constructor
      · intro h
        rw [← hlen, h]
        rfl
      · intro h
        rw [h] at hlen
        exact List.length_eq_zero.mp hlen
    by_cases hsup : is_language_supported language = false
    · refine ⟨?_, ?_, ?_⟩
      · unfold ensure_language_audio_is_generated langRunProduced
        rw [if_pos hsup, if_pos hsup]
        simp
      · intro hne
        unfold langRunProduced at hne
        rw [if_pos hsup] at hne
        exact absurd rfl hne
      · intro f hf
        unfold langRunProduced at hf
        rw [if_pos hsup] at hf
        simp at hf
    · have hprod : langRunProduced key env language chunkFn isSpg pid title
          sections =
          (langRunAcc env (use_local_tts key env) chunkFn isSpg pid title
            sections).files := by
        unfold langRunProduced
        rw [if_neg hsup]
      refine ⟨?_, ?_, ?_⟩
      · rw [hprod]
        unfold ensure_language_audio_is_generated
        rw [if_neg hsup]
        by_cases hz : (langRunAcc env (use_local_tts key env) chunkFn isSpg pid
            title sections).succ = 0
        · rw [if_pos hz]
          simp [hfe.mpr hz]
        · rw [if_neg hz]
          simp [hfe, hz]
      · intro hne
        rw [hprod] at hne
        rw [hprod]
        unfold ensure_language_audio_is_generated
        rw [if_neg hsup, if_neg (fun hz => hne (hfe.mpr hz))]
      · intro f hf
        rw [hprod] at hf
        exact hdir f hf

/-- Witness for C5: a concrete local-mode run whose title unit succeeds
returns the produced file name instead of raising. -/
theorem C5_witness :
    (engRunAcc
      ⟨true, ProbeOutcome.ok, fun _ => true, fun _ _ => SynthOutcome.bytes 1,
        fun _ => true, fun _ => true⟩
      (use_local_tts ""
        ⟨true, ProbeOutcome.ok, fun _ => true, fun _ _ => SynthOutcome.bytes 1,
          fun _ => true, fun _ => true⟩)
      id "p" "Hi".data (fun _ => none)).files ≠ [] ∧
    ensure_audio_is_generated ""
      ⟨true, ProbeOutcome.ok, fun _ => true, fun _ _ => SynthOutcome.bytes 1,
        fun _ => true, fun _ => true⟩
      id "p" "Hi".data (fun _ => none) =
      Except.ok ((engRunAcc
        ⟨true, ProbeOutcome.ok, fun _ => true, fun _ _ => SynthOutcome.bytes 1,
          fun _ => true, fun _ => true⟩
        (use_local_tts ""
          ⟨true, ProbeOutcome.ok, fun _ => true, fun _ _ => SynthOutcome.bytes 1,
            fun _ => true, fun _ => true⟩)
        id "p" "Hi".data (fun _ => none)).files.map APath.name) :=
  ⟨by decide,
   (C5_run_error_iff_no_audio.1 ""
     ⟨true, ProbeOutcome.ok, fun _ => true, fun _ _ => SynthOutcome.bytes 1,
       fun _ => true, fun _ => true⟩
     id "p" "Hi".data (fun _ => none)).2.1 (by decide)⟩

end Saral
